import Mathlib

/-!
Verification of the compressor library's core: format identification,
the rewindable stream, the composite compressed-archive format, the
format registry, the archive filesystem adapter (implicit directories,
sorting, directory listing), the skip list, extraction path filtering,
and cancellation in the tar archiver/extractor.

Byte streams are shallowly embedded as lists of naturals (one per byte).
Readers that in Go pull bytes out of an io.Reader are modelled as
functions consuming a prefix of such a list; fallible operations return
Option or a dedicated result type.
-/

namespace Compressor

/-- A byte of a stream. -/
abbrev Byte := Nat

/-- MatchResult from formats.go: a format can match by filename, by
stream content, or both. -/
structure MatchResult where
  byName : Bool
  byStream : Bool
deriving DecidableEq, Repr

/-- MatchResult.Matched: true if a match was made by either name or stream. -/
def MatchResult.matched (mr : MatchResult) : Bool :=
  mr.byName || mr.byStream

/-- readAtMost from formats.go: reads at most n bytes from the stream;
an empty or short stream is not an error (io.ReadFull's EOF and
UnexpectedEOF are discarded), so the slice returned may be shorter than
n.  Over pure byte-list streams no genuine I/O error can occur, so the
error return is always nil and is omitted. -/
def readAtMost (stream : List Byte) (n : Nat) : List Byte :=
  stream.take n

/-!
## The rewindable stream (rewindReader, formats.go)

State of a rewindReader:
* src is the unread remainder of the underlying reader,
* buf is the accumulation buffer (all bytes ever delivered from the
  underlying source, in order),
* bufRdr models the bytes.Reader over a snapshot of buf: some bs means
  rewound mode with bs the bytes of the snapshot not yet re-delivered;
  none means the field is nil.
-/
structure RewindReader where
  src : List Byte
  buf : List Byte
  bufRdr : Option (List Byte)
deriving DecidableEq, Repr

/-- newRewindReader: fresh reader over a source, empty buffer, nil
bufReader. -/
def newRewindReader (src : List Byte) : RewindReader :=
  ⟨src, [], none⟩

/-- The tail of rewindReader.Read: read k bytes from the underlying
source (fewer if it is exhausted), append them to the accumulation
buffer, and prepend the bytes pre already taken from the buffer
snapshot. -/
def readSrc (k : Nat) (pre : List Byte) (rr : RewindReader) :
    List Byte × RewindReader :=
  let got := rr.src.take k
  (pre ++ got, ⟨rr.src.drop k, rr.buf ++ got, rr.bufRdr⟩)

/-- rewindReader.Read with a buffer of size k.  If a buffer snapshot is
being replayed, serve bytes from it first; an exhausted snapshot
(bytes.Reader returning EOF) clears the field and reading continues from
the underlying source, recording everything read into buf. -/
def RewindReader.read (rr : RewindReader) (k : Nat) :
    List Byte × RewindReader :=
  match rr.bufRdr with
  | none => readSrc k [] rr
  | some bs =>
    if bs.isEmpty then
      -- bytes.Reader returns (0, EOF): clear bufReader, error dropped
      if k == 0 then ([], { rr with bufRdr := none })
      else readSrc k [] { rr with bufRdr := none }
    else
      let fromBuf := bs.take k
      if fromBuf.length == k then
        (fromBuf, { rr with bufRdr := some (bs.drop k) })
      else
        readSrc (k - fromBuf.length) fromBuf { rr with bufRdr := some (bs.drop k) }

/-- rewindReader.rewind: point the bufReader at a snapshot of the whole
accumulation buffer. -/
def RewindReader.rewind (rr : RewindReader) : RewindReader :=
  { rr with bufRdr := some rr.buf }

/-- rewindReader.reader: the byte sequence produced by reading the
returned reader to exhaustion.  For a non-seekable source this is
io.MultiReader(bytes.NewReader(buf), underlying): first the buffered
bytes, then the untouched remainder of the source.  (When the source is
seekable the underlying reader itself is returned after seeking to its
start, which yields the full original sequence as well.) -/
def RewindReader.readerBytes (rr : RewindReader) : List Byte :=
  rr.buf ++ rr.src

/-- The logical content of a rewindReader: bytes already accumulated
followed by the unread remainder of the source.  For a reader built by
newRewindReader this is the original source, and reads preserve it. -/
def RewindReader.contents (rr : RewindReader) : List Byte :=
  rr.buf ++ rr.src

theorem readSrc_contents (k : Nat) (pre : List Byte) (rr : RewindReader) :
    (readSrc k pre rr).2.contents = rr.contents := by
  simp [readSrc, RewindReader.contents, List.append_assoc]

theorem read_contents (rr : RewindReader) (k : Nat) :
    (rr.read k).2.contents = rr.contents := by
  obtain ⟨src, buf, bufRdr⟩ := rr
  cases bufRdr with
  | none =>
    exact readSrc_contents k [] ⟨src, buf, none⟩
  | some bs =>
    simp only [RewindReader.read]
    by_cases hbs : bs.isEmpty
    · rw [if_pos hbs]
      by_cases hk : (k == 0) = true
      · rw [if_pos hk]
        rfl
      · rw [if_neg hk]
        exact readSrc_contents k [] ⟨src, buf, none⟩
    · rw [if_neg hbs]
      by_cases hlen : ((bs.take k).length == k) = true
      · rw [if_pos hlen]
        rfl
      · rw [if_neg hlen]
        exact readSrc_contents (k - (bs.take k).length) (bs.take k)
          ⟨src, buf, some (bs.drop k)⟩

/-- Helper: appending the continuation bytes reconstructs the k-byte
prefix of the concatenation. -/
theorem take_append_full (l₁ l₂ : List Byte) (k : Nat) (h : l₁.length ≤ k) :
    l₁ ++ l₂.take (k - l₁.length) = (l₁ ++ l₂).take k := by
  induction l₁ generalizing k with
  | nil => simp
  | cons a t ih =>
    cases k with
    | zero => simp at h
    | succ m =>
      simp only [List.cons_append, List.take_succ_cons, List.cons.injEq, true_and]
      have := ih m (by simpa using h)
      simpa [Nat.succ_sub_succ] using this

/-- Reading k bytes right after a rewind returns exactly the first k
bytes of the logical content, regardless of how much the buffer already
holds. -/
theorem read_after_rewind (rr : RewindReader) (k : Nat) :
    (rr.rewind.read k).1 = rr.contents.take k := by
  obtain ⟨src, buf, bufRdr⟩ := rr
  show (RewindReader.read ⟨src, buf, some buf⟩ k).1 = (buf ++ src).take k
  simp only [RewindReader.read]
  by_cases hbuf : buf.isEmpty
  · have hb : buf = [] := List.isEmpty_iff.mp hbuf
    rw [if_pos hbuf]
    subst hb
    by_cases hk : (k == 0) = true
    · rw [if_pos hk]
      have : k = 0 := by simpa using hk
      simp [this]
    · rw [if_neg hk]
      simp [readSrc]
  · rw [if_neg hbuf]
    by_cases hlen : ((buf.take k).length == k) = true
    · rw [if_pos hlen]
      have hk : k ≤ buf.length := by
        have : (buf.take k).length = k := by simpa using hlen
        simp only [List.length_take] at this
        omega
      exact (List.take_append_of_le_length hk).symm
    · rw [if_neg hlen]
      have hk : buf.length < k := by
        have : (buf.take k).length ≠ k := by simpa using hlen
        simp only [List.length_take] at this
        omega
      have htake : buf.take k = buf := List.take_of_length_le (le_of_lt hk)
      show buf.take k ++ src.take (k - (buf.take k).length) = _
      rw [htake]
      exact take_append_full buf src k (le_of_lt hk)

/-- One rewind-then-read cycle, keeping the resulting state. -/
def cycleState (k : Nat) (rr : RewindReader) : RewindReader :=
  (rr.rewind.read k).2

/-- The bytes a rewind-then-read cycle delivers. -/
def cycleOut (k : Nat) (rr : RewindReader) : List Byte :=
  (rr.rewind.read k).1

theorem cycleState_contents (k : Nat) (rr : RewindReader) :
    (cycleState k rr).contents = rr.contents := by
  unfold cycleState
  rw [read_contents]
  simp [RewindReader.rewind, RewindReader.contents]

theorem iterate_cycle_contents (k n : Nat) (rr : RewindReader) :
    ((cycleState k)^[n] rr).contents = rr.contents := by
  induction n generalizing rr with
  | zero => rfl
  | succ m ih =>
    rw [Function.iterate_succ_apply]
    rw [ih, cycleState_contents]

/-- Claim C1: for every underlying byte source and every fixed buffer
size, each rewind-then-read cycle of a rewindReader delivers the same
bytes (the source's k-byte prefix) no matter how many cycles already
ran; and after a final rewind the reader returned by reader(), read to
exhaustion, yields exactly the source's full byte sequence, each byte
exactly once. -/
theorem rewindReader_cycles_stable_and_reader_complete
    (src : List Byte) (k n : Nat) :
    cycleOut k ((cycleState k)^[n] (newRewindReader src)) = src.take k ∧
    (((cycleState k)^[n] (newRewindReader src)).rewind).readerBytes = src := by
  have hc : ((cycleState k)^[n] (newRewindReader src)).contents = src := by
    rw [iterate_cycle_contents]
    simp [newRewindReader, RewindReader.contents]
  constructor
  · unfold cycleOut
    rw [read_after_rewind, hc]
  · have : (((cycleState k)^[n] (newRewindReader src)).rewind).readerBytes
        = ((cycleState k)^[n] (newRewindReader src)).contents := by
      simp [RewindReader.rewind, RewindReader.readerBytes, RewindReader.contents]
    rw [this, hc]

/-!
## The composite format (CompressedArchive, formats.go)

The compression and archival layers are interface values in Go; for
Name() only the layers' presence and their Name() strings matter, so
each layer is modelled by its optional name.
-/
structure CompressedArchive where
  compression : Option String
  archival : Option String
deriving DecidableEq, Repr

/-- CompressedArchive.Name from formats.go.  The Go method panics when
neither layer is set (modelled as none); otherwise it concatenates the
archival name (when set) followed by the compression name (when set). -/
def CompressedArchive.nameResult (caf : CompressedArchive) : Option String :=
  if caf.compression = none ∧ caf.archival = none then
    none
  else
    some ((match caf.archival with
      | some a => a
      | none => "") ++
      match caf.compression with
      | some c => c
      | none => "")

/-- Claim C6: for every CompressedArchive, Name() panics exactly when
neither layer is set, and otherwise returns the archival layer's name
(when set) concatenated with the compression layer's name (when set),
archival component first. -/
theorem compressedArchive_name_spec (caf : CompressedArchive) :
    (caf.nameResult = none ↔ caf.compression = none ∧ caf.archival = none) ∧
    (∀ a c, caf.archival = some a → caf.compression = some c →
      caf.nameResult = some (a ++ c)) ∧
    (∀ a, caf.archival = some a → caf.compression = none →
      caf.nameResult = some a) ∧
    (∀ c, caf.compression = some c → caf.archival = none →
      caf.nameResult = some c) := by
  obtain ⟨comp, arch⟩ := caf
  cases comp <;> cases arch <;>
    simp [CompressedArchive.nameResult]

/-- Witness for C6: archival ".tar" with compression ".gz" yields
".tar.gz", archival component first. -/
theorem compressedArchive_name_spec_witness :
    CompressedArchive.nameResult ⟨some ".gz", some ".tar"⟩ = some ".tar.gz" := by
  have h := (compressedArchive_name_spec ⟨some ".gz", some ".tar"⟩).2.1
    ".tar" ".gz" rfl rfl
  simpa using h

/-!
## The format registry (RegisterFormat, formats.go)
-/

/-- strings.ToLower on one character, restricted to ASCII (format names
in this library are ASCII). -/
def toLowerChar (c : Char) : Char :=
  if 'A' ≤ c ∧ c ≤ 'Z' then Char.ofNat (c.toNat + 32) else c

def strToLower (s : String) : String :=
  String.mk (s.toList.map toLowerChar)

/-- strings.Trim(s, ".") as used by RegisterFormat: removes all leading
and trailing '.' characters (Go's Trim cuts from both ends). -/
def trimDots (s : String) : String :=
  String.mk (((s.toList.dropWhile (fun c => c = '.')).reverse.dropWhile
    (fun c => c = '.')).reverse)

/-- The key RegisterFormat files a format under:
strings.Trim(strings.ToLower(format.Name()), "."). -/
def goFormatKey (name : String) : String :=
  trimDots (strToLower name)

/-- Follows the claim's words (for comparison with goFormatKey): the
format name lowercased and trimmed of a leading separator only. -/
def claimFormatKey (name : String) : String :=
  String.mk ((strToLower name).toList.dropWhile (fun c => c = '.'))

/-- RegisterFormat from formats.go, over the registry modelled as the
list of (key, format-name) pairs in registration order: panics
(modelled as none) if the key already exists, otherwise inserts the
format under its key.  No other operation on the registry exists. -/
def registerFormat (reg : List (String × String)) (fmtName : String) :
    Option (List (String × String)) :=
  let key := goFormatKey fmtName
  if reg.any (fun p => p.1 == key) then none
  else some (reg ++ [(key, fmtName)])

/-- Claim C7 counterexample: RegisterFormat trims the separator from
both ends of the lowercased name, not only a leading one.  A format
named "gz." is keyed "gz", while the claim's leading-only trimming
predicts "gz.". -/
theorem registerFormat_key_counterexample :
    goFormatKey "gz." = "gz" ∧ claimFormatKey "gz." = "gz." ∧
    goFormatKey "gz." ≠ claimFormatKey "gz." ∧
    registerFormat [] "gz." = some [("gz", "gz.")] := by
  refine ⟨?_, ?_, ?_, ?_⟩ <;> decide

/-- Claim C7 (amended): RegisterFormat keys a descriptor by its name
lowercased and trimmed of leading and trailing separator characters; a
registration whose key is already present panics (and, the model being
functional, produces no new registry, so the registry is unchanged);
otherwise the new entry is appended and every prior entry is preserved
in place (no removal or replacement). -/
theorem registerFormat_spec (reg : List (String × String)) (fmtName : String) :
    (registerFormat reg fmtName = none ↔
      goFormatKey fmtName ∈ reg.map Prod.fst) ∧
    (goFormatKey fmtName ∉ reg.map Prod.fst →
      registerFormat reg fmtName =
        some (reg ++ [(goFormatKey fmtName, fmtName)])) ∧
    (∀ r, registerFormat reg fmtName = some r → reg <+: r) := by
  have hmem : (reg.any (fun p => p.1 == goFormatKey fmtName)) = true ↔
      goFormatKey fmtName ∈ reg.map Prod.fst := by
    simp [List.any_eq_true, beq_iff_eq, List.mem_map]
  unfold registerFormat
  by_cases h : reg.any (fun p => p.1 == goFormatKey fmtName)
  · rw [if_pos h]
    refine ⟨⟨fun _ => hmem.mp h, fun _ => rfl⟩, fun hn => ?_, fun r hr => ?_⟩
    · exact absurd (hmem.mp h) hn
    · exact absurd hr (by simp)
  · rw [if_neg h]
    refine ⟨⟨fun hc => by simp at hc, fun hm => ?_⟩, fun _ => rfl, fun r hr => ?_⟩
    · exact absurd (hmem.mpr hm) h
    · obtain rfl : reg ++ [(goFormatKey fmtName, fmtName)] = r :=
        Option.some.inj hr
      exact ⟨[(goFormatKey fmtName, fmtName)], rfl⟩

/-- Witness for the amended C7: registering ".gz" into a registry
already holding key "tar" appends under the both-ends-trimmed key. -/
theorem registerFormat_spec_witness :
    registerFormat [("tar", ".tar")] ".gz"
      = some ([("tar", ".tar")] ++ [(goFormatKey ".gz", ".gz")]) :=
  (registerFormat_spec [("tar", ".tar")] ".gz").2.1 (by decide)

/-!
## Paths

skipList and fileIsIncluded (compressor.go) operate on slash-separated
path strings, modelled as lists of characters.
-/

/-- A file path, as its list of characters. -/
abbrev GoPath := List Char

/-- Bridge between the executable prefix test and the prefix order. -/
theorem isPrefixOf_eq_true_iff (l₁ l₂ : GoPath) :
    l₁.isPrefixOf l₂ = true ↔ l₁ <+: l₂ := List.isPrefixOf_iff_prefix

/-- strings.TrimSuffix(p, "/"): removes one trailing slash when
present. -/
def trimSuffixSlash (p : GoPath) : GoPath :=
  if p.getLast? = some '/' then p.dropLast else p

/-!
## Extraction path filtering (fileIsIncluded, compressor.go)

The Go function distinguishes a nil slice from an empty one, modelled
as Option: none is nil, some [] the empty non-nil list.
-/

/-- fileIsIncluded from compressor.go: a nil list includes every file;
otherwise a file is included if it equals a listed path or the listed
path (with any trailing slash trimmed) plus "/" is a prefix of it. -/
def fileIsIncluded (filenameList : Option (List GoPath)) (filename : GoPath) :
    Bool :=
  match filenameList with
  | none => true
  | some l => l.any (fun fn =>
      filename == fn || (trimSuffixSlash fn ++ ['/']).isPrefixOf filename)

/-- Claim C10: the extraction path filter distinguishes nil from empty:
a nil filter includes every entry; an empty non-nil filter includes
none; a non-empty filter includes exactly the entries equal to a listed
path or lying under a listed path as a directory prefix, a trailing
slash on the listed path being ignored. -/
theorem fileIsIncluded_spec :
    (∀ f : GoPath, fileIsIncluded none f = true) ∧
    (∀ f : GoPath, fileIsIncluded (some []) f = false) ∧
    (∀ (l : List GoPath) (f : GoPath),
      fileIsIncluded (some l) f = true ↔
        ∃ fn ∈ l, f = fn ∨ (trimSuffixSlash fn ++ ['/']) <+: f) := by
  refine ⟨fun f => rfl, fun f => rfl, fun l f => ?_⟩
  unfold fileIsIncluded
  simp only [List.any_eq_true, Bool.or_eq_true, beq_iff_eq,
    isPrefixOf_eq_true_iff]

/-!
## The skip list (skipList.add, compressor.go)
-/

/-- Element e subsumes path d (comparing with one trailing slash
trimmed from each): they are equal, or e is an ancestor directory of
d. -/
def subsumes (e d : GoPath) : Prop :=
  trimSuffixSlash e = trimSuffixSlash d ∨
    (trimSuffixSlash e ++ ['/']) <+: trimSuffixSlash d

instance (e d : GoPath) : Decidable (subsumes e d) := by
  unfold subsumes; infer_instance

/-- The loop of skipList.add (compressor.go), walking the list with the
latching dontAdd flag.  td is the trimmed dir.  An exact trimmed match
returns the remainder unchanged without appending; a broader element
keeps itself and latches dontAdd; a narrower element is removed; after
the walk dir is appended unless dontAdd latched. -/
def addRun (td dir : GoPath) : List GoPath → Bool → List GoPath
  | [], dontAdd => if dontAdd then [] else [dir]
  | e :: rest, dontAdd =>
    if td = trimSuffixSlash e then e :: rest
    else if (trimSuffixSlash e ++ ['/']).isPrefixOf td then
      e :: addRun td dir rest true
    else if (td ++ ['/']).isPrefixOf (trimSuffixSlash e) then
      addRun td dir rest dontAdd
    else e :: addRun td dir rest dontAdd

/-- skipList.add from compressor.go. -/
def skipAdd (s : List GoPath) (dir : GoPath) : List GoPath :=
  addRun (trimSuffixSlash dir) dir s false

/-- The skip list invariant: no element subsumes another (in particular
no element is an ancestor directory of another, and no two elements are
trim-equal). -/
def skipInv (s : List GoPath) : Prop :=
  s.Pairwise (fun a b => ¬ subsumes a b ∧ ¬ subsumes b a)

instance (s : List GoPath) : Decidable (skipInv s) := by
  unfold skipInv; infer_instance

theorem subsumes_symmRel :
    Symmetric (fun a b : GoPath => ¬ subsumes a b ∧ ¬ subsumes b a) :=
  fun _ _ h => ⟨h.2, h.1⟩

/-- A strict ancestor is strictly shorter. -/
theorem ancestor_length_lt {x y : GoPath} (h : (x ++ ['/']) <+: y) :
    x.length < y.length := by
  have := h.length_le
  simp only [List.length_append, List.length_cons, List.length_nil] at this
  omega

theorem ancestor_irrefl (x : GoPath) : ¬ (x ++ ['/']) <+: x := by
  intro h
  exact absurd (ancestor_length_lt h) (lt_irrefl _)

theorem ancestor_asymm {x y : GoPath} (h₁ : (x ++ ['/']) <+: y) :
    ¬ (y ++ ['/']) <+: x := by
  intro h₂
  have := ancestor_length_lt h₁
  have := ancestor_length_lt h₂
  omega

/-- When no element of the list is trim-equal to td, the loop removes
exactly the narrower elements and appends dir unless dontAdd is set or
some broader element occurs. -/
theorem addRun_eq_filter (td dir : GoPath) (l : List GoPath) (dontAdd : Bool)
    (h : ∀ e ∈ l, trimSuffixSlash e ≠ td) :
    addRun td dir l dontAdd =
      l.filter (fun e => !((td ++ ['/']).isPrefixOf (trimSuffixSlash e))) ++
        (if (dontAdd ||
              l.any fun e => (trimSuffixSlash e ++ ['/']).isPrefixOf td)
          then [] else [dir]) := by
  induction l generalizing dontAdd with
  | nil => cases dontAdd <;> simp [addRun]
  | cons e rest ih =>
    have hne : td ≠ trimSuffixSlash e := fun hh => (h e (by simp)) hh.symm
    have hrest : ∀ x ∈ rest, trimSuffixSlash x ≠ td :=
      fun x hx => h x (List.mem_cons_of_mem _ hx)
    simp only [addRun]
    rw [if_neg hne]
    by_cases hbr : ((trimSuffixSlash e ++ ['/']).isPrefixOf td) = true
    · rw [if_pos hbr]
      have hbrp : (trimSuffixSlash e ++ ['/']) <+: td :=
        (isPrefixOf_eq_true_iff _ _).mp hbr
      have hnr : ((td ++ ['/']).isPrefixOf (trimSuffixSlash e)) = false := by
        rw [Bool.eq_false_iff]
        intro hc
        exact ancestor_asymm hbrp ((isPrefixOf_eq_true_iff _ _).mp hc)
      rw [ih true hrest]
      simp [List.filter_cons, List.any_cons, hnr, hbr]
    · rw [if_neg hbr]
      by_cases hnr : ((td ++ ['/']).isPrefixOf (trimSuffixSlash e)) = true
      · rw [if_pos hnr]
        rw [ih dontAdd hrest]
        simp [List.filter_cons, List.any_cons, hnr,
          Bool.eq_false_iff.mpr (fun hc => hbr hc)]
      · rw [if_neg hnr]
        rw [ih dontAdd hrest]
        simp [List.filter_cons, List.any_cons,
          Bool.eq_false_iff.mpr (fun hc => hnr hc),
          Bool.eq_false_iff.mpr (fun hc => hbr hc)]

/-- When some element is trim-equal to td and no element is narrower
than td, the loop returns the list unchanged (the early return). -/
theorem addRun_early_return (td dir : GoPath) (l : List GoPath) (dontAdd : Bool)
    (hex : ∃ e ∈ l, trimSuffixSlash e = td)
    (hnr : ∀ e ∈ l, ¬ (td ++ ['/']) <+: trimSuffixSlash e) :
    addRun td dir l dontAdd = l := by
  induction l generalizing dontAdd with
  | nil => obtain ⟨e, he, _⟩ := hex; exact absurd he (List.not_mem_nil e)
  | cons e rest ih =>
    simp only [addRun]
    by_cases heq : td = trimSuffixSlash e
    · rw [if_pos heq]
    · rw [if_neg heq]
      have hexr : ∃ x ∈ rest, trimSuffixSlash x = td := by
        obtain ⟨x, hx, hxe⟩ := hex
        rcases List.mem_cons.mp hx with rfl | hx'
        · exact absurd hxe.symm heq
        · exact ⟨x, hx', hxe⟩
      have hnrr : ∀ x ∈ rest, ¬ (td ++ ['/']) <+: trimSuffixSlash x :=
        fun x hx => hnr x (List.mem_cons_of_mem _ hx)
      have hnre : ((td ++ ['/']).isPrefixOf (trimSuffixSlash e)) ≠ true := by
        intro hc
        exact hnr e (by simp) ((isPrefixOf_eq_true_iff _ _).mp hc)
      by_cases hbr : ((trimSuffixSlash e ++ ['/']).isPrefixOf td) = true
      · rw [if_pos hbr, ih true hexr hnrr]
      · rw [if_neg hbr, if_neg hnre, ih dontAdd hexr hnrr]

/-- Under the invariant, if some element of s is a strict ancestor of d
then no element is trim-equal to d and none is narrower than d. -/
theorem inv_broader_excludes (s : List GoPath) (d : GoPath)
    (hinv : skipInv s)
    (hbr : ∃ e ∈ s, (trimSuffixSlash e ++ ['/']) <+: trimSuffixSlash d) :
    (∀ e ∈ s, trimSuffixSlash e ≠ trimSuffixSlash d) ∧
    (∀ e ∈ s, ¬ (trimSuffixSlash d ++ ['/']) <+: trimSuffixSlash e) := by
  obtain ⟨e₀, he₀, hbr₀⟩ := hbr
  have hall := List.Pairwise.forall subsumes_symmRel hinv
  constructor
  · intro e he heq
    by_cases hval : e₀ = e
    · subst hval
      rw [heq] at hbr₀
      exact ancestor_irrefl _ hbr₀
    · have hR := hall he₀ he hval
      exact hR.1 (Or.inr (heq ▸ hbr₀))
  · intro e he hnr
    by_cases hval : e₀ = e
    · subst hval
      exact ancestor_asymm hbr₀ hnr
    · have hR := hall he₀ he hval
      have : (trimSuffixSlash e₀ ++ ['/']) <+: trimSuffixSlash e :=
        (hbr₀.trans (List.prefix_append _ _)).trans hnr
      exact hR.1 (Or.inr this)

/-- Claim C8 part 1: under the invariant, adding a path that a broader
element already subsumes leaves the list unchanged. -/
theorem skipAdd_subsumed (s : List GoPath) (d : GoPath)
    (hinv : skipInv s)
    (hbr : ∃ e ∈ s, (trimSuffixSlash e ++ ['/']) <+: trimSuffixSlash d) :
    skipAdd s d = s := by
  obtain ⟨hne, hnr⟩ := inv_broader_excludes s d hinv hbr
  unfold skipAdd
  rw [addRun_eq_filter _ _ _ _ hne]
  have hany : (s.any fun e =>
      (trimSuffixSlash e ++ ['/']).isPrefixOf (trimSuffixSlash d)) = true := by
    rw [List.any_eq_true]
    obtain ⟨e₀, he₀, hbr₀⟩ := hbr
    exact ⟨e₀, he₀, (isPrefixOf_eq_true_iff _ _).mpr hbr₀⟩
  rw [hany]
  have hfil : s.filter (fun e =>
      !((trimSuffixSlash d ++ ['/']).isPrefixOf (trimSuffixSlash e))) = s := by
    rw [List.filter_eq_self]
    intro e he
    rw [Bool.not_eq_true', Bool.eq_false_iff]
    intro hc
    exact hnr e he ((isPrefixOf_eq_true_iff _ _).mp hc)
  simp [hfil]

/-- Claim C8 part 2: under the invariant, adding an exact (trim-equal)
duplicate leaves the list unchanged. -/
theorem skipAdd_duplicate (s : List GoPath) (d : GoPath)
    (hinv : skipInv s)
    (heq : ∃ e ∈ s, trimSuffixSlash e = trimSuffixSlash d) :
    skipAdd s d = s := by
  obtain ⟨e₀, he₀, heq₀⟩ := heq
  have hall := List.Pairwise.forall subsumes_symmRel hinv
  apply addRun_early_return
  · exact ⟨e₀, he₀, heq₀⟩
  · intro e he hnr
    by_cases hval : e₀ = e
    · subst hval
      rw [heq₀] at hnr
      exact ancestor_irrefl _ hnr
    · have hR := hall he₀ he hval
      exact hR.1 (Or.inr (by rw [heq₀]; exact hnr))

/-- Claim C8 part 3: adding a path that nothing in the list subsumes
removes every element it strictly subsumes and appends it. -/
theorem skipAdd_new (s : List GoPath) (d : GoPath)
    (h : ∀ e ∈ s, ¬ subsumes e d) :
    skipAdd s d =
      s.filter (fun e =>
        !((trimSuffixSlash d ++ ['/']).isPrefixOf (trimSuffixSlash e))) ++ [d] := by
  unfold skipAdd
  rw [addRun_eq_filter _ _ _ _
    (fun e he => fun hc => h e he (Or.inl hc))]
  have hany : (s.any fun e =>
      (trimSuffixSlash e ++ ['/']).isPrefixOf (trimSuffixSlash d)) = false := by
    rw [Bool.eq_false_iff, Ne, List.any_eq_true]
    rintro ⟨e, he, hc⟩
    exact h e he (Or.inr ((isPrefixOf_eq_true_iff _ _).mp hc))
  rw [hany]
  simp

/-- Claim C8 part 4: skipList.add preserves the invariant. -/
theorem skipAdd_inv (s : List GoPath) (d : GoPath) (hinv : skipInv s) :
    skipInv (skipAdd s d) := by
  by_cases heq : ∃ e ∈ s, trimSuffixSlash e = trimSuffixSlash d
  · rw [skipAdd_duplicate s d hinv heq]; exact hinv
  · by_cases hbr : ∃ e ∈ s, (trimSuffixSlash e ++ ['/']) <+: trimSuffixSlash d
    · rw [skipAdd_subsumed s d hinv hbr]; exact hinv
    · push_neg at heq hbr
      rw [skipAdd_new s d (fun e he hc => by
        rcases hc with hc | hc
        · exact heq e he hc
        · exact hbr e he hc)]
      unfold skipInv
      rw [List.pairwise_append]
      refine ⟨hinv.sublist (List.filter_sublist s), by simp, ?_⟩
      intro a ha b hb
      rw [List.mem_filter] at ha
      rw [List.mem_singleton] at hb
      subst hb
      constructor
      · rintro (hc | hc)
        · exact heq a ha.1 hc
        · exact hbr a ha.1 hc
      · rintro (hc | hc)
        · exact heq a ha.1 hc.symm
        · have := ha.2
          rw [Bool.not_eq_true', Bool.eq_false_iff] at this
          exact this ((isPrefixOf_eq_true_iff _ _).mpr hc)

/-- Helper for the claim: folding adds from the empty list keeps the
invariant. -/
theorem skipFoldl_inv (ds : List GoPath) :
    skipInv (ds.foldl skipAdd []) := by
  suffices h : ∀ init, skipInv init → skipInv (ds.foldl skipAdd init) by
    exact h [] (by simp [skipInv])
  induction ds with
  | nil => intro init h; exact h
  | cons d rest ih =>
    intro init h
    exact ih (skipAdd init d) (skipAdd_inv init d h)

/-- Claim C8: for every sequence of skipList.add calls, adding a path
already subsumed by a broader element is a no-op, adding an exact
duplicate is a no-op, adding a path broader than existing elements
removes every such narrower element and appends the broader path, and
after any sequence of adds starting from the empty list no element of
the list subsumes (in particular, is an ancestor directory of)
another. -/
theorem skipList_add_spec (s : List GoPath) (d : GoPath) :
    (skipInv s →
      (∃ e ∈ s, (trimSuffixSlash e ++ ['/']) <+: trimSuffixSlash d) →
      skipAdd s d = s) ∧
    (skipInv s → (∃ e ∈ s, trimSuffixSlash e = trimSuffixSlash d) →
      skipAdd s d = s) ∧
    ((∀ e ∈ s, ¬ subsumes e d) →
      skipAdd s d =
        s.filter (fun e =>
          !((trimSuffixSlash d ++ ['/']).isPrefixOf (trimSuffixSlash e)))
        ++ [d]) ∧
    (skipInv s → skipInv (skipAdd s d)) ∧
    (∀ ds : List GoPath, skipInv (ds.foldl skipAdd [])) :=
  ⟨fun hinv hbr => skipAdd_subsumed s d hinv hbr,
   fun hinv heq => skipAdd_duplicate s d hinv heq,
   fun h => skipAdd_new s d h,
   fun hinv => skipAdd_inv s d hinv,
   fun ds => skipFoldl_inv ds⟩

/-- Witness for C8 at concrete inputs: with list ["a", "x/y"], adding
"a/b" (subsumed by "a") is a no-op; and with the same list, adding "x"
removes "x/y" and appends "x". -/
theorem skipList_add_spec_witness :
    skipAdd [['a'], ['x', '/', 'y']] ['a', '/', 'b']
      = [['a'], ['x', '/', 'y']] ∧
    skipAdd [['a'], ['x', '/', 'y']] ['x'] = [['a'], ['x']] := by
  constructor
  · exact (skipList_add_spec [['a'], ['x', '/', 'y']] ['a', '/', 'b']).1
      (by decide) ⟨['a'], by decide, by decide⟩
  · have h := (skipList_add_spec [['a'], ['x', '/', 'y']] ['x']).2.2.1
      (by decide)
    rw [h]
    decide

/-!
## Path components (path.Dir / path.Base for clean relative paths)
-/

/-- Splits a path at its last slash: some (before, after), or none when
it contains no slash. -/
def lastSplit : GoPath → Option (GoPath × GoPath)
  | [] => none
  | c :: rest =>
    match lastSplit rest with
    | some (d, e) => some (c :: d, e)
    | none => if c = '/' then some ([], rest) else none

/-- path.Dir for clean, relative, slash-separated names without a
trailing slash: the part before the last slash, or "." when there is
none. -/
def pathDir (n : GoPath) : GoPath :=
  match lastSplit n with
  | some (d, _) => d
  | none => ['.']

/-- path.Base for clean, relative, slash-separated names without a
trailing slash: the part after the last slash, or the whole name. -/
def pathBase (n : GoPath) : GoPath :=
  match lastSplit n with
  | some (_, e) => e
  | none => n

/-!
## Cancellation in the tar archiver and extractor (tar.go)

The context is modelled by the entry index at which it first reports
cancellation (none: never cancelled); the context is constant within
the processing of one entry.  Ordinary per-entry write failures are a
boolean function of the entry index.
-/

/-- ctx.Err() != nil while processing entry i: contexts stay cancelled
once cancelled. -/
def ctxCancelled (cancelAt : Option Nat) (i : Nat) : Bool :=
  match cancelAt with
  | some t => t ≤ i
  | none => false

inductive TarErr
  | cancelled
  | entryErr (i : Nat)
  | headerErr (i : Nat)
  | handlerErr (i : Nat)
deriving DecidableEq, Repr

/-- The loop of Tar.Archive (tar.go) from entry index i with the given
fuel (number of entries left).  writeFileToArchive checks ctx.Err()
first, so cancellation is checked once per entry; an ordinary write
failure is logged and skipped only when ContinueOnError is set and the
context is not cancelled at that moment; otherwise it aborts.  Returns
the indices of the entries written and the resulting error, if any. -/
def archiveLoop (contOnErr : Bool) (cancelAt : Option Nat)
    (errAt : Nat → Bool) : Nat → Nat → List Nat × Option TarErr
  | _, 0 => ([], none)
  | i, fuel + 1 =>
    if ctxCancelled cancelAt i then ([], some .cancelled)
    else if errAt i then
      if contOnErr then archiveLoop contOnErr cancelAt errAt (i + 1) fuel
      else ([], some (.entryErr i))
    else
      let step := archiveLoop contOnErr cancelAt errAt (i + 1) fuel
      (i :: step.1, step.2)

/-- Tar.Archive over n entries. -/
def tarArchive (contOnErr : Bool) (cancelAt : Option Nat)
    (errAt : Nat → Bool) (n : Nat) : List Nat × Option TarErr :=
  archiveLoop contOnErr cancelAt errAt 0 n

/-- The handler's response to one extracted entry. -/
inductive HandlerRes
  | ok
  | skipDir
  | fail
deriving DecidableEq, Repr

/-- One iteration of the tar stream as seen by Tar.Extract: the end of
the archive, a failing tr.Next, or a delivered header carrying the
entry name, its directory flag, and the handler's response. -/
inductive XEvent
  | eof
  | hdrErr
  | entry (name : GoPath) (isDir : Bool) (res : HandlerRes)
deriving DecidableEq, Repr

/-- Events that end the loop before the cancellation check of the next
iteration can matter: end of stream, or a handler failure (which aborts
regardless of ContinueOnError). -/
def abortsEarly : XEvent → Bool
  | .eof => true
  | .entry _ _ .fail => true
  | _ => false

/-- The loop of Tar.Extract (tar.go): each iteration checks ctx.Err()
first; a failing tr.Next is logged and skipped only when
ContinueOnError is set and the context is not cancelled; entries
excluded by the path filter or already covered by the skip list are
skipped; a handler returning fs.SkipDir adds the entry (or, for
non-directories, its parent directory plus "/") to the skip list; any
other handler error aborts regardless of ContinueOnError.  (The pax
global header skip is not modelled: no event stands for it.)  Returns
the names handled and the resulting error, if any. -/
def extractLoop (contOnErr : Bool) (cancelAt : Option Nat)
    (paths : Option (List GoPath)) :
    List XEvent → Nat → List GoPath → List GoPath × Option TarErr
  | [], _, _ => ([], none)
  | ev :: rest, i, skipDirs =>
    if ctxCancelled cancelAt i then ([], some .cancelled)
    else
      match ev with
      | .eof => ([], none)
      | .hdrErr =>
        if contOnErr then
          extractLoop contOnErr cancelAt paths rest (i + 1) skipDirs
        else ([], some (.headerErr i))
      | .entry name isDir res =>
        if !(fileIsIncluded paths name) then
          extractLoop contOnErr cancelAt paths rest (i + 1) skipDirs
        else if fileIsIncluded (some skipDirs) name then
          extractLoop contOnErr cancelAt paths rest (i + 1) skipDirs
        else
          match res with
          | .ok =>
            let step := extractLoop contOnErr cancelAt paths rest (i + 1) skipDirs
            (name :: step.1, step.2)
          | .skipDir =>
            let dirPath := if isDir then name else pathDir name ++ ['/']
            let step := extractLoop contOnErr cancelAt paths rest (i + 1)
              (skipAdd skipDirs dirPath)
            (name :: step.1, step.2)
          | .fail => ([name], some (.handlerErr i))

/-- Tar.Extract over a stream of events (skipDirs starts as the empty,
non-nil list). -/
def tarExtract (contOnErr : Bool) (cancelAt : Option Nat)
    (paths : Option (List GoPath)) (events : List XEvent) :
    List GoPath × Option TarErr :=
  extractLoop contOnErr cancelAt paths events 0 []

theorem archiveLoop_cancelled (errAt : Nat → Bool) :
    ∀ (fuel i t : Nat), i ≤ t → t < i + fuel →
    archiveLoop true (some t) errAt i fuel =
      ((List.range' i (t - i)).filter (fun j => !errAt j), some .cancelled) := by
  intro fuel
  induction fuel with
  | zero => intro i t h₁ h₂; omega
  | succ m ih =>
    intro i t h₁ h₂
    by_cases hit : t ≤ i
    · have : i = t := le_antisymm h₁ hit
      subst this
      simp [archiveLoop, ctxCancelled]
    · have hlt : i < t := lt_of_not_le hit
      have hcc : ctxCancelled (some t) i = false := by
        simp [ctxCancelled]; omega
      have hrange : List.range' i (t - i) = i :: List.range' (i + 1) (t - (i + 1)) := by
        have : t - i = (t - (i + 1)) + 1 := by omega
        rw [this, List.range'_succ]
      rw [show archiveLoop true (some t) errAt i (m + 1) =
        (if ctxCancelled (some t) i then ([], some .cancelled)
        else if errAt i then
          (if true then archiveLoop true (some t) errAt (i + 1) m
           else ([], some (.entryErr i)))
        else
          let step := archiveLoop true (some t) errAt (i + 1) m
          (i :: step.1, step.2)) from rfl]
      rw [hcc]
      by_cases herr : errAt i
      · simp only [herr, if_true, Bool.false_eq_true, if_false]
        rw [ih (i + 1) t (by omega) (by omega)]
        rw [hrange]
        simp [List.filter_cons, herr]
      · simp only [herr, Bool.false_eq_true, if_false]
        rw [ih (i + 1) t (by omega) (by omega)]
        rw [hrange]
        simp [List.filter_cons, herr]

theorem archiveLoop_not_complete (contOnErr : Bool) (errAt : Nat → Bool) :
    ∀ (fuel i t : Nat), i ≤ t → t < i + fuel →
    (archiveLoop contOnErr (some t) errAt i fuel).2 ≠ none := by
  intro fuel
  induction fuel with
  | zero => intro i t h₀ h; omega
  | succ m ih =>
    intro i t h₀ h
    show (if ctxCancelled (some t) i then ([], some TarErr.cancelled)
      else if errAt i then
        (if contOnErr then archiveLoop contOnErr (some t) errAt (i + 1) m
         else ([], some (.entryErr i)))
      else
        let step := archiveLoop contOnErr (some t) errAt (i + 1) m
        (i :: step.1, step.2)).2 ≠ none
    by_cases hcc : ctxCancelled (some t) i
    · simp [hcc]
    · have hlt : i < t := by
        simp [ctxCancelled] at hcc
        omega
      rw [if_neg hcc]
      by_cases herr : errAt i
      · rw [if_pos herr]
        by_cases hco : contOnErr
        · rw [if_pos hco]; exact ih (i + 1) t (by omega) (by omega)
        · rw [if_neg hco]; simp
      · rw [if_neg herr]
        exact ih (i + 1) t (by omega) (by omega)

theorem extractLoop_cancelled (paths : Option (List GoPath)) :
    ∀ (events : List XEvent) (i t : Nat) (skipDirs : List GoPath),
    i ≤ t → t < i + events.length →
    (∀ ev ∈ events.take (t - i), abortsEarly ev = false) →
    (extractLoop true (some t) paths events i skipDirs).2 = some .cancelled ∧
    ∀ p ∈ (extractLoop true (some t) paths events i skipDirs).1,
      ∃ ev ∈ events.take (t - i), ∃ d r, ev = XEvent.entry p d r := by
  intro events
  induction events with
  | nil => intro i t _ h₁ h₂; simp at h₂; omega
  | cons ev rest ih =>
    intro i t skipDirs h₁ h₂ h₃
    by_cases hit : t ≤ i
    · have : i = t := le_antisymm h₁ hit
      subst this
      constructor
      · simp [extractLoop, ctxCancelled]
      · intro p hp
        simp [extractLoop, ctxCancelled] at hp
    · have hlt : i < t := lt_of_not_le hit
      have hcc : ctxCancelled (some t) i = false := by
        simp [ctxCancelled]; omega
      have htake : (ev :: rest).take (t - i)
          = ev :: rest.take (t - (i + 1)) := by
        have : t - i = (t - (i + 1)) + 1 := by omega
        rw [this, List.take_succ_cons]
      have hev : abortsEarly ev = false := by
        apply h₃
        rw [htake]; simp
      have h₃r : ∀ e ∈ rest.take (t - (i + 1)), abortsEarly e = false := by
        intro e he
        apply h₃
        rw [htake]
        exact List.mem_cons_of_mem _ he
      have hlen : t < (i + 1) + rest.length := by
        simp at h₂; omega
      have hmem : ∀ p,
          (∃ e ∈ rest.take (t - (i + 1)), ∃ d r, e = XEvent.entry p d r) →
          ∃ e ∈ (ev :: rest).take (t - i), ∃ d r, e = XEvent.entry p d r := by
        intro p ⟨e, he, hx⟩
        exact ⟨e, by rw [htake]; exact List.mem_cons_of_mem _ he, hx⟩
      cases ev with
      | eof => simp [abortsEarly] at hev
      | hdrErr =>
        have hrec := ih (i + 1) t skipDirs (by omega) hlen h₃r
        have heq : extractLoop true (some t) paths (XEvent.hdrErr :: rest) i skipDirs
            = extractLoop true (some t) paths rest (i + 1) skipDirs := by
          show (if ctxCancelled (some t) i then _ else _) = _
          rw [if_neg (by simp [hcc])]
          rfl
        rw [heq]
        exact ⟨hrec.1, fun p hp => hmem p (hrec.2 p hp)⟩
      | entry name isDir res =>
        by_cases hinc : fileIsIncluded paths name
        · by_cases hskip : fileIsIncluded (some skipDirs) name
          · have heq : extractLoop true (some t) paths
                (XEvent.entry name isDir res :: rest) i skipDirs
                = extractLoop true (some t) paths rest (i + 1) skipDirs := by
              show (if ctxCancelled (some t) i then _ else _) = _
              rw [if_neg (by simp [hcc])]
              show (if (!fileIsIncluded paths name) = true then _ else _) = _
              rw [if_neg (by simp [hinc])]
              show (if fileIsIncluded (some skipDirs) name = true
                then _ else _) = _
              rw [if_pos hskip]
            rw [heq]
            have hrec := ih (i + 1) t skipDirs (by omega) hlen h₃r
            exact ⟨hrec.1, fun p hp => hmem p (hrec.2 p hp)⟩
          · cases res with
            | ok =>
              have heq : extractLoop true (some t) paths
                  (XEvent.entry name isDir .ok :: rest) i skipDirs
                  = (name ::
                      (extractLoop true (some t) paths rest (i + 1) skipDirs).1,
                     (extractLoop true (some t) paths rest (i + 1) skipDirs).2) := by
                show (if ctxCancelled (some t) i then _ else _) = _
                rw [if_neg (by simp [hcc])]
                show (if (!fileIsIncluded paths name) = true then _ else _) = _
                rw [if_neg (by simp [hinc])]
                show (if fileIsIncluded (some skipDirs) name = true
                  then _ else _) = _
                rw [if_neg hskip]
              rw [heq]
              have hrec := ih (i + 1) t skipDirs (by omega) hlen h₃r
              refine ⟨hrec.1, ?_⟩
              intro p hp
              rcases List.mem_cons.mp hp with rfl | hp'
              · exact ⟨XEvent.entry p isDir .ok, by rw [htake]; simp, isDir, .ok, rfl⟩
              · exact hmem p (hrec.2 p hp')
            | skipDir =>
              have heq : extractLoop true (some t) paths
                  (XEvent.entry name isDir .skipDir :: rest) i skipDirs
                  = (name ::
                      (extractLoop true (some t) paths rest (i + 1)
                        (skipAdd skipDirs
                          (if isDir then name else pathDir name ++ ['/']))).1,
                     (extractLoop true (some t) paths rest (i + 1)
                        (skipAdd skipDirs
                          (if isDir then name else pathDir name ++ ['/']))).2) := by
                show (if ctxCancelled (some t) i then _ else _) = _
                rw [if_neg (by simp [hcc])]
                show (if (!fileIsIncluded paths name) = true then _ else _) = _
                rw [if_neg (by simp [hinc])]
                show (if fileIsIncluded (some skipDirs) name = true
                  then _ else _) = _
                rw [if_neg hskip]
              rw [heq]
              have hrec := ih (i + 1) t
                (skipAdd skipDirs (if isDir then name else pathDir name ++ ['/']))
                (by omega) hlen h₃r
              refine ⟨hrec.1, ?_⟩
              intro p hp
              rcases List.mem_cons.mp hp with rfl | hp'
              · exact ⟨XEvent.entry p isDir .skipDir, by rw [htake]; simp,
                  isDir, .skipDir, rfl⟩
              · exact hmem p (hrec.2 p hp')
            | fail => simp [abortsEarly] at hev
        · have heq : extractLoop true (some t) paths
              (XEvent.entry name isDir res :: rest) i skipDirs
              = extractLoop true (some t) paths rest (i + 1) skipDirs := by
            show (if ctxCancelled (some t) i then _ else _) = _
            rw [if_neg (by simp [hcc])]
            show (if (!fileIsIncluded paths name) = true then _ else _) = _
            rw [if_pos (by simp [hinc])]
          rw [heq]
          have hrec := ih (i + 1) t skipDirs (by omega) hlen h₃r
          exact ⟨hrec.1, fun p hp => hmem p (hrec.2 p hp)⟩

/-- Claim C9: in the tar archiver and extractor the cancellation signal
is checked once per entry, a detected cancellation aborts the operation
with the cancellation error before handling further entries, and
continue-on-error never suppresses a cancellation (a cancelled run
never completes successfully, whatever ContinueOnError is; with
ContinueOnError set and cancellation arriving at entry t, the result is
exactly the cancellation error with only entries before t handled). -/
theorem tar_cancellation_spec :
    (∀ (contOnErr : Bool) (errAt : Nat → Bool) (n t : Nat), t < n →
      (tarArchive contOnErr (some t) errAt n).2 ≠ none) ∧
    (∀ (errAt : Nat → Bool) (n t : Nat), t < n →
      tarArchive true (some t) errAt n =
        ((List.range' 0 t).filter (fun j => !errAt j), some .cancelled)) ∧
    (∀ (paths : Option (List GoPath)) (events : List XEvent) (t : Nat),
      t < events.length →
      (∀ ev ∈ events.take t, abortsEarly ev = false) →
      (tarExtract true (some t) paths events).2 = some .cancelled ∧
      ∀ p ∈ (tarExtract true (some t) paths events).1,
        ∃ ev ∈ events.take t, ∃ d r, ev = XEvent.entry p d r) := by
  refine ⟨?_, ?_, ?_⟩
  · intro contOnErr errAt n t ht
    exact archiveLoop_not_complete contOnErr errAt n 0 t (by omega) (by omega)
  · intro errAt n t ht
    have := archiveLoop_cancelled errAt n 0 t (by omega) (by omega)
    simpa [tarArchive] using this
  · intro paths events t ht habort
    have := extractLoop_cancelled paths events 0 t [] (by omega)
      (by omega) (by simpa using habort)
    simpa [tarExtract] using this

/-- Witness for C9 at concrete inputs: three entries, cancellation
arriving at entry 1, no write failures; and an extraction of two
entries with cancellation at entry 1. -/
theorem tar_cancellation_spec_witness :
    tarArchive true (some 1) (fun _ => false) 3
      = ([0], some .cancelled) ∧
    (tarExtract true (some 1) none
      [XEvent.entry ['a'] false .ok, XEvent.entry ['b'] false .ok]).2
      = some .cancelled := by
  constructor
  · have h := tar_cancellation_spec.2.1 (fun _ => false) 3 1 (by decide)
    rw [h]
    decide
  · exact (tar_cancellation_spec.2.2 none
      [XEvent.entry ['a'] false .ok, XEvent.entry ['b'] false .ok] 1
      (by decide) (by decide)).1

/-!
## Format identification (Identify / identifyOne, formats.go)
-/

/-- A registered format, by its name and capability class.  Every
format of this library implements exactly one of the two capabilities
Identify dispatches on (Compression or Archival). -/
structure FmtSpec where
  name : String
  isCompression : Bool
  isArchival : Bool
deriving DecidableEq, Repr

/-- The I/O errors relevant to probing. -/
inductive IOErr
  | eof
  | unexpectedEof
  | other (msg : String)
deriving DecidableEq, Repr

/-- What happened inside one probe, before identifyOne's error
handling: either opening the decompression reader over the stream
failed (possible only when a compression layer is given), or the
format's Match returned a result together with an optional error. -/
inductive ProbeRes
  | openErr (e : IOErr)
  | matchRes (mr : MatchResult) (e : Option IOErr)
deriving DecidableEq, Repr

/-- identifyOne from formats.go: an error from OpenReader propagates
unchanged (with a zero MatchResult); an EOF from Match is discarded,
meaning the input was merely small and the format did not match by
stream; any other Match error propagates with the Match result. -/
def identifyOne (p : ProbeRes) : MatchResult × Option IOErr :=
  match p with
  | .openErr e => (⟨false, false⟩, some e)
  | .matchRes mr (some .eof) => (mr, none)
  | .matchRes mr e => (mr, e)

/-- One pass of Identify: walk the registry, probing only the formats
of the given capability class; a probe error aborts the pass with the
format's name, the first match wins, and a pass without a match
selects nothing. -/
def identifyPass (pr : FmtSpec → MatchResult × Option IOErr)
    (isClass : FmtSpec → Bool) :
    List FmtSpec → Except (String × IOErr) (Option FmtSpec)
  | [] => .ok none
  | f :: rest =>
    if isClass f then
      match pr f with
      | (_, some e) => .error (f.name, e)
      | (mr, none) =>
        if mr.matched then .ok (some f) else identifyPass pr isClass rest
    else identifyPass pr isClass rest

/-- The outcome of Identify: the Go function returns (Format, reader,
error); the format/error pair takes exactly these shapes. -/
inductive IdentifyRes
  | compressionOnly (f : FmtSpec)
  | archivalOnly (f : FmtSpec)
  | compressedArchive (c a : FmtSpec)
  | noFormatsMatched
  | probeError (name : String) (e : IOErr)
deriving DecidableEq, Repr

/-- Identify from formats.go over an abstract registry and probe
semantics.  The probe function gives the raw result of one probe of a
format; its second argument is the compression layer wrapped around
the stream (none during pass 1; during pass 2 the compression selected
by pass 1).  Each probe starts from a rewound stream (identifyOne
defers rewind), so probes are independent of one another. -/
def identifyGo (fmts : List FmtSpec)
    (probe : FmtSpec → Option FmtSpec → ProbeRes) : IdentifyRes :=
  match identifyPass (fun f => identifyOne (probe f none))
      (fun f => f.isCompression) fmts with
  | .error (n, e) => .probeError n e
  | .ok comp =>
    match identifyPass (fun f => identifyOne (probe f comp))
        (fun f => f.isArchival) fmts with
    | .error (n, e) => .probeError n e
    | .ok arch =>
      match comp, arch with
      | some c, none => .compressionOnly c
      | none, some a => .archivalOnly a
      | some c, some a => .compressedArchive c a
      | none, none => .noFormatsMatched

/-- A pass whose probes never error selects the first format of its
class that matches. -/
theorem identifyPass_no_err (pr : FmtSpec → MatchResult × Option IOErr)
    (isClass : FmtSpec → Bool) (fmts : List FmtSpec)
    (h : ∀ f ∈ fmts, (pr f).2 = none) :
    identifyPass pr isClass fmts =
      .ok (fmts.find? (fun f => isClass f && (pr f).1.matched)) := by
  induction fmts with
  | nil => rfl
  | cons f rest ih =>
    have hf : (pr f).2 = none := h f (by simp)
    have hrest : ∀ x ∈ rest, (pr x).2 = none :=
      fun x hx => h x (List.mem_cons_of_mem _ hx)
    simp only [identifyPass]
    by_cases hc : isClass f
    · rw [if_pos hc]
      have : pr f = ((pr f).1, none) := by
        rw [← hf]
      rw [this]
      by_cases hm : (pr f).1.matched
      · simp [List.find?_cons, hc, hm]
      · simp only [hm, Bool.false_eq_true, if_false]
        rw [ih hrest]
        simp [List.find?_cons, hc, hm]
    · rw [if_neg hc]
      rw [ih hrest]
      simp [List.find?_cons, hc]

/-- Claim C2 (amended): provided every probe completes without an I/O
error, Identify resolves to exactly one of four mutually exclusive
cases determined by which capability classes produced a first match:
compression only, archival only, both combined into a
CompressedArchive, or the distinguished no-formats-matched failure. -/
theorem identify_four_cases (fmts : List FmtSpec)
    (probe : FmtSpec → Option FmtSpec → ProbeRes)
    (h : ∀ f c, (identifyOne (probe f c)).2 = none) :
    identifyGo fmts probe =
      (match
        fmts.find? (fun f => f.isCompression &&
          (identifyOne (probe f none)).1.matched),
        fmts.find? (fun f => f.isArchival &&
          (identifyOne (probe f
            (fmts.find? (fun g => g.isCompression &&
              (identifyOne (probe g none)).1.matched)))).1.matched) with
      | some c, none => IdentifyRes.compressionOnly c
      | none, some a => IdentifyRes.archivalOnly a
      | some c, some a => IdentifyRes.compressedArchive c a
      | none, none => IdentifyRes.noFormatsMatched) := by
  have h₁ := identifyPass_no_err (fun f => identifyOne (probe f none))
    (fun f => f.isCompression) fmts (fun f _ => h f none)
  have h₂ := identifyPass_no_err
    (fun f => identifyOne (probe f
      (fmts.find? (fun g => g.isCompression &&
        (identifyOne (probe g none)).1.matched))))
    (fun f => f.isArchival) fmts (fun f _ => h f _)
  unfold identifyGo
  simp only [h₁, h₂]

/-- Witness for the amended C2 on a concrete registry and probe with
no errors: nothing matches, so the result is the no-match case. -/
theorem identify_four_cases_witness :
    identifyGo [⟨".gz", true, false⟩, ⟨".tar", false, true⟩]
      (fun _ _ => ProbeRes.matchRes ⟨false, false⟩ none)
      = IdentifyRes.noFormatsMatched := by
  have h := identify_four_cases
    [⟨".gz", true, false⟩, ⟨".tar", false, true⟩]
    (fun _ _ => ProbeRes.matchRes ⟨false, false⟩ none)
    (fun _ _ => rfl)
  rw [h]
  decide

/-!
## The concrete registry (all formats registered by this library)

Magic headers copied from the per-format source files.
-/

def gzHeader : List Byte := [0x1f, 0x8b]
def bzip2Header : List Byte := [66, 90, 104]
def xzHeader : List Byte := [0xfd, 0x37, 0x7a, 0x58, 0x5a, 0x00]
def zstdHeader : List Byte := [0x28, 0xb5, 0x2f, 0xfd]
def lz4Header : List Byte := [0x04, 0x22, 0x4d, 0x18]
def snappyHeader : List Byte :=
  [0xff, 0x06, 0x00, 0x00, 0x73, 0x4e, 0x61, 0x50, 0x70, 0x59]
def ZlibHeader : List Byte := [0x78]
def zipHeader : List Byte := [80, 75, 3, 4]
def sevenZipHeader : List Byte := [55, 122, 0xbc, 0xaf, 0x27, 0x1c]
def rarHeaderV1 : List Byte := [82, 97, 114, 33, 0x1a, 0x07, 0x00]
def rarHeaderV5 : List Byte := [82, 97, 114, 33, 0x1a, 0x07, 0x01, 0x00]

/-- strings.Contains: needle occurs as a contiguous run of hay. -/
def containsSub (needle : List Char) : List Char → Bool
  | [] => needle.isEmpty
  | c :: t => needle.isPrefixOf (c :: t) || containsSub needle t

/-- The by-name check shared by every Match implementation:
strings.Contains(strings.ToLower(filename), format.Name()). -/
def matchByName (filename fmtName : String) : Bool :=
  containsSub fmtName.toList (strToLower filename).toList

/-- The by-stream checks of the Match implementations, dispatched by
format name.  All but two compare a readAtMost slice against the magic
header (bytes.Equal compares whole slices; rar checks two header
versions as prefixes of one readAtMost slice); brotli has no
well-defined header and never matches by stream; tar's structural
probe (archive/tar reading and checksumming a 512-byte header block)
is external to this repository and is abstracted as the function
tarProbe. -/
def matchByStream (tarProbe : List Byte → Bool) (fmtName : String)
    (stream : List Byte) : Bool :=
  if fmtName = ".gz" then readAtMost stream gzHeader.length == gzHeader
  else if fmtName = ".bz2" then
    readAtMost stream bzip2Header.length == bzip2Header
  else if fmtName = ".xz" then readAtMost stream xzHeader.length == xzHeader
  else if fmtName = ".zst" then
    readAtMost stream zstdHeader.length == zstdHeader
  else if fmtName = ".lz4" then readAtMost stream lz4Header.length == lz4Header
  else if fmtName = ".sz" then
    readAtMost stream snappyHeader.length == snappyHeader
  else if fmtName = ".br" then false
  else if fmtName = ".zz" then
    readAtMost stream ZlibHeader.length == ZlibHeader
  else if fmtName = ".zip" then readAtMost stream zipHeader.length == zipHeader
  else if fmtName = ".7z" then
    readAtMost stream sevenZipHeader.length == sevenZipHeader
  else if fmtName = ".rar" then
    let buf := readAtMost stream rarHeaderV5.length
    (decide (rarHeaderV1.length ≤ buf.length) &&
      buf.take rarHeaderV1.length == rarHeaderV1) ||
    (decide (rarHeaderV5.length ≤ buf.length) &&
      buf.take rarHeaderV5.length == rarHeaderV5)
  else if fmtName = ".tar" then tarProbe stream
  else false

/-- All formats this library registers, with their capability
classes.  The Go registry is a map with unspecified iteration order;
theorems below therefore either hold for arbitrary lists drawn from
these formats, or fix this canonical order for concrete evaluation. -/
def canonicalFormats : List FmtSpec :=
  [⟨".br", true, false⟩, ⟨".bz2", true, false⟩, ⟨".gz", true, false⟩,
   ⟨".lz4", true, false⟩, ⟨".sz", true, false⟩, ⟨".xz", true, false⟩,
   ⟨".zz", true, false⟩, ⟨".zst", true, false⟩,
   ⟨".7z", false, true⟩, ⟨".rar", false, true⟩, ⟨".tar", false, true⟩,
   ⟨".zip", false, true⟩]

/-- The probe semantics of identifyOne's body for a given filename and
stream, per format.  With no compression layer, the format's Match
runs on the raw stream and, matchers of this repository being total
over byte lists, returns no error.  With a compression layer (pass 2
reaches this only when pass 1 matched), the layer's OpenReader wraps
the stream first.  Modelled from the spec: only the zlib layer is ever
selected by the theorems below; compress/zlib's NewReader eagerly
reads a 2-byte header, so opening it over a shorter stream fails with
the unexpected-EOF I/O error (not an ordinary EOF).  Probing through
an open decompressor on longer streams is not modelled and is marked
by a distinct error no theorem's evaluation reaches. -/
def probeModel (tarProbe : List Byte → Bool) (filename : String)
    (stream : List Byte) (f : FmtSpec) (comp : Option FmtSpec) : ProbeRes :=
  match comp with
  | none =>
    .matchRes ⟨matchByName filename f.name,
      matchByStream tarProbe f.name stream⟩ none
  | some c =>
    if c.name = ".zz" && decide (stream.length < 2) then
      .openErr .unexpectedEof
    else
      .matchRes ⟨false, false⟩ (some (.other "decompressed probe unmodelled"))

/-- A registry in which every format probes with no error and no match
identifies nothing. -/
theorem identify_all_unmatched (fmts : List FmtSpec)
    (probe : FmtSpec → Option FmtSpec → ProbeRes)
    (h : ∀ f ∈ fmts, identifyOne (probe f none) = (⟨false, false⟩, none)) :
    identifyGo fmts probe = .noFormatsMatched := by
  unfold identifyGo
  have hn : ∀ f ∈ fmts, (identifyOne (probe f none)).2 = none :=
    fun f hf => by rw [h f hf]
  have hfind : ∀ p : FmtSpec → Bool,
      fmts.find? (fun f => p f && (identifyOne (probe f none)).1.matched)
        = none := by
    intro p
    rw [List.find?_eq_none]
    intro f hf
    rw [h f hf]
    simp [MatchResult.matched]
  have h₁ := identifyPass_no_err (fun f => identifyOne (probe f none))
    (fun f => f.isCompression) fmts hn
  rw [hfind] at h₁
  have h₂ := identifyPass_no_err (fun f => identifyOne (probe f none))
    (fun f => f.isArchival) fmts hn
  rw [hfind] at h₂
  simp only [h₁, h₂]

/-- Claim C3 counterexample: the 1-byte stream 0x78 is exactly the
zlib magic header, so with no filename pass 1 matches the zlib
compression format; pass 2 then fails to open the zlib reader over the
1-byte stream, and Identify returns a probe error naming the first
archival format — not the no-formats-matched failure the claim
requires of every 1-byte stream.  (Whatever the map iteration order,
pass 1 can only match zlib on this stream, so no order yields
no-formats-matched.) -/
theorem identify_one_byte_zlib_counterexample :
    identifyGo canonicalFormats (probeModel (fun _ => false) "" [0x78])
      = .probeError ".7z" .unexpectedEof ∧
    identifyGo canonicalFormats (probeModel (fun _ => false) "" [0x78])
      ≠ .noFormatsMatched := by
  refine ⟨?_, ?_⟩ <;> decide

/-- Claim C2 counterexample: on the 1-byte stream 0x78 a compression
format (zlib) matches in pass 1, yet Identify returns neither that
compression descriptor nor any of the claim's four case results — it
returns a probe error, so the four cases are not exhaustive over all
filenames and streams. -/
theorem identify_cases_not_exhaustive_counterexample :
    canonicalFormats.find? (fun f => f.isCompression &&
      (identifyOne (probeModel (fun _ => false) "" [0x78] f none)).1.matched)
      = some ⟨".zz", true, false⟩ ∧
    identifyGo canonicalFormats (probeModel (fun _ => false) "" [0x78])
      = .probeError ".7z" .unexpectedEof := by
  refine ⟨?_, ?_⟩ <;> decide

/-- Claim C3 (amended): a Match error of end-of-input is discarded by
identifyOne (the format merely did not match); and, with no filename,
Identify returns the no-formats-matched failure and no other error on
the empty stream (the only stream shorter than every registered magic
header, zlib's being a single byte) and on every 1-byte stream other
than 0x78, the zlib header byte.  The tar probe is abstract, assumed
only to reject streams shorter than a 512-byte tar header block; the
registry is any list of the registered formats, covering every map
iteration order. -/
theorem identify_short_stream_spec
    (fmts : List FmtSpec) (hsub : ∀ f ∈ fmts, f ∈ canonicalFormats)
    (tarProbe : List Byte → Bool)
    (htar : ∀ s, s.length < 512 → tarProbe s = false)
    (stream : List Byte)
    (hstream : stream = [] ∨ ∃ b, stream = [b] ∧ b ≠ 0x78) :
    (∀ mr, identifyOne (.matchRes mr (some .eof)) = (mr, none)) ∧
    identifyGo fmts (probeModel tarProbe "" stream) = .noFormatsMatched := by
  refine ⟨fun mr => rfl, ?_⟩
  apply identify_all_unmatched
  intro f hf
  have hf' := hsub f hf
  have hlen : stream.length ≤ 1 := by
    rcases hstream with rfl | ⟨b, rfl, _⟩ <;> simp
  have htar0 : tarProbe stream = false := htar stream (by omega)
  have hmagic : ∀ (x y : Byte) (r : List Byte),
      (readAtMost stream (x :: y :: r).length == (x :: y :: r)) = false := by
    intro x y r
    rw [beq_eq_false_iff_ne]
    intro hc
    have h1 : (readAtMost stream (x :: y :: r).length).length ≤ 1 := by
      unfold readAtMost
      have := List.length_take (x :: y :: r).length stream
      omega
    rw [hc] at h1
    simp at h1
  have hzz : matchByStream tarProbe ".zz" stream = false := by
    show (readAtMost stream ZlibHeader.length == ZlibHeader) = false
    rcases hstream with rfl | ⟨b, rfl, hb⟩
    · rfl
    · rw [beq_eq_false_iff_ne]
      intro hc
      apply hb
      have h2 : ([b] : List Byte) = [0x78] := by
        simpa [readAtMost, ZlibHeader] using hc
      simpa using h2
  have hbuflen : ∀ n, (readAtMost stream n).length ≤ 1 := by
    intro n
    unfold readAtMost
    have := List.length_take n stream
    omega
  have hrar7 : decide (rarHeaderV1.length ≤
      (readAtMost stream rarHeaderV5.length).length) = false :=
    decide_eq_false (by
      intro hcon
      have h1 := hbuflen rarHeaderV5.length
      have h2 : rarHeaderV1.length = 7 := rfl
      omega)
  have hrar8 : decide (rarHeaderV5.length ≤
      (readAtMost stream rarHeaderV5.length).length) = false :=
    decide_eq_false (by
      intro hcon
      have h1 := hbuflen rarHeaderV5.length
      have h2 : rarHeaderV5.length = 8 := rfl
      omega)
  have hrarm : matchByStream tarProbe ".rar" stream = false := by
    show ((decide (rarHeaderV1.length ≤
        (readAtMost stream rarHeaderV5.length).length) &&
        ((readAtMost stream rarHeaderV5.length).take rarHeaderV1.length
          == rarHeaderV1)) ||
      (decide (rarHeaderV5.length ≤
        (readAtMost stream rarHeaderV5.length).length) &&
        ((readAtMost stream rarHeaderV5.length).take rarHeaderV5.length
          == rarHeaderV5))) = false
    rw [hrar7, hrar8]
    rfl
  have hbr : matchByStream tarProbe ".br" stream = false := rfl
  have hgz : matchByStream tarProbe ".gz" stream = false :=
    hmagic 0x1f 0x8b []
  have hbz2 : matchByStream tarProbe ".bz2" stream = false :=
    hmagic 66 90 [104]
  have hxz : matchByStream tarProbe ".xz" stream = false :=
    hmagic 0xfd 0x37 [0x7a, 0x58, 0x5a, 0x00]
  have hzst : matchByStream tarProbe ".zst" stream = false :=
    hmagic 0x28 0xb5 [0x2f, 0xfd]
  have hlz4 : matchByStream tarProbe ".lz4" stream = false :=
    hmagic 0x04 0x22 [0x4d, 0x18]
  have hsz : matchByStream tarProbe ".sz" stream = false :=
    hmagic 0xff 0x06 [0x00, 0x00, 0x73, 0x4e, 0x61, 0x50, 0x70, 0x59]
  have hzip : matchByStream tarProbe ".zip" stream = false :=
    hmagic 80 75 [3, 4]
  have h7z : matchByStream tarProbe ".7z" stream = false :=
    hmagic 55 122 [0xbc, 0xaf, 0x27, 0x1c]
  have htarm : matchByStream tarProbe ".tar" stream = false := htar0
  have hclose : ∀ (nm : String) (c a : Bool), matchByName "" nm = false →
      matchByStream tarProbe nm stream = false →
      identifyOne (probeModel tarProbe "" stream ⟨nm, c, a⟩ none)
        = (⟨false, false⟩, none) := by
    intro nm c a h1 h2
    show identifyOne (.matchRes
      ⟨matchByName "" nm, matchByStream tarProbe nm stream⟩ none) = _
    rw [h1, h2]
    rfl
  fin_cases hf'
  · exact hclose ".br" _ _ rfl hbr
  · exact hclose ".bz2" _ _ rfl hbz2
  · exact hclose ".gz" _ _ rfl hgz
  · exact hclose ".lz4" _ _ rfl hlz4
  · exact hclose ".sz" _ _ rfl hsz
  · exact hclose ".xz" _ _ rfl hxz
  · exact hclose ".zz" _ _ rfl hzz
  · exact hclose ".zst" _ _ rfl hzst
  · exact hclose ".7z" _ _ rfl h7z
  · exact hclose ".rar" _ _ rfl hrarm
  · exact hclose ".tar" _ _ rfl htarm
  · exact hclose ".zip" _ _ rfl hzip

/-- Witness for the amended C3: the empty stream and the 1-byte stream
'a' identify as nothing over the canonical registry with a tar probe
that rejects short streams. -/
theorem identify_short_stream_spec_witness :
    identifyGo canonicalFormats (probeModel (fun _ => false) "" [])
      = .noFormatsMatched ∧
    identifyGo canonicalFormats (probeModel (fun _ => false) "" [0x61])
      = .noFormatsMatched := by
  constructor
  · exact (identify_short_stream_spec canonicalFormats (fun _ h => h)
      (fun _ => false) (fun _ _ => rfl) [] (Or.inl rfl)).2
  · exact (identify_short_stream_spec canonicalFormats (fun _ h => h)
      (fun _ => false) (fun _ _ => rfl) [0x61]
      (Or.inr ⟨0x61, rfl, by decide⟩)).2

/-!
## The archive filesystem adapter (split / fillImplicit / search /
openReadDir, file_system.go and the ArchiveFS source)
-/

/-- An archive entry as the adapter's collection handler records it:
the slash-separated path within the archive (surrounding slashes
trimmed), the FileInfo base name, Size, ModTime (0 standing for the
zero time.Time), and the directory bit of Mode (IsDir). -/
structure FileM where
  fileName : GoPath
  baseName : GoPath
  size : Int
  modTime : Int
  dirMode : Bool
deriving DecidableEq, Repr

instance : Inhabited FileM := ⟨⟨[], [], 0, 0, false⟩⟩

/-- IsDir() of an entry: the directory bit of its mode. -/
def FileM.isDir (f : FileM) : Bool := f.dirMode

theorem lastSplit_length {n d e : GoPath} (h : lastSplit n = some (d, e)) :
    d.length < n.length := by
  induction n generalizing d e with
  | nil => simp [lastSplit] at h
  | cons c rest ih =>
    simp only [lastSplit] at h
    cases hr : lastSplit rest with
    | some p =>
      obtain ⟨d', e'⟩ := p
      rw [hr] at h
      simp only [Option.some.injEq, Prod.mk.injEq] at h
      obtain ⟨h1, h2⟩ := h
      subst h1
      have := ih hr
      simp only [List.length_cons]
      omega
    | none =>
      rw [hr] at h
      by_cases hc : c = '/'
      · rw [if_pos hc] at h
        simp only [Option.some.injEq, Prod.mk.injEq] at h
        obtain ⟨h1, _⟩ := h
        subst h1
        simp
      · rw [if_neg hc] at h
        exact absurd h (by simp)

/-- split from the ArchiveFS source: strips one trailing slash
(reporting isDir), then splits at the last slash; a name without a
slash lives in directory ".". -/
def splitGo (name : GoPath) : GoPath × GoPath × Bool :=
  let p := if name.getLast? = some '/' then (name.dropLast, true)
    else (name, false)
  match lastSplit p.1 with
  | some (d, e) => (d, e, p.2)
  | none => (['.'], p.1, p.2)

/-- The ancestor-directory chain of fillImplicit's dirs loop, with
explicit fuel (each parent is strictly shorter, so fuel n.length
realizes the Go loop exactly). -/
def ancestorDirsAux : Nat → GoPath → List GoPath
  | 0, _ => []
  | fuel + 1, n =>
    match lastSplit n with
    | some (d, _) => d :: ancestorDirsAux fuel d
    | none => []

/-- The ancestor directories of the fillImplicit dirs loop:
path.Dir(name), path.Dir(path.Dir(name)), ... down to (excluding)
".". -/
def ancestorDirs (n : GoPath) : List GoPath :=
  ancestorDirsAux n.length n

/-- The File fillImplicit synthesizes for a missing directory dir:
implicitDirInfo carries Name = path.Base(dir), Size 0, the zero
ModTime, and Mode = ModeDir (hence IsDir). -/
def mkImplicit (d : GoPath) : FileM :=
  ⟨d, pathBase d, 0, 0, true⟩

/-- The dirs set of fillImplicit (all ancestor directories referenced
by entry paths) as a deduplicated list in first-encounter order; the
final sort makes the Go map's unspecified iteration order immaterial
up to permutation. -/
def collectDirs (files : List FileM) : List GoPath :=
  (files.flatMap (fun f => ancestorDirs f.fileName)).dedup

/-- The knownDirs test of fillImplicit: some entry is a directory under
exactly this name. -/
def knownDir (files : List FileM) (d : GoPath) : Bool :=
  files.any (fun f => f.isDir && f.fileName == d)

/-- The entries fillImplicit appends: one synthesized directory for
every referenced ancestor with no explicit directory entry. -/
def synthDirs (files : List FileM) : List FileM :=
  ((collectDirs files).filter (fun d => !knownDir files d)).map mkImplicit

/-- Go's bytewise string comparison, on the paths' character lists
(the paths involved are ASCII, where character order is byte order). -/
def pathLtb : GoPath → GoPath → Bool
  | [], [] => false
  | [], _ :: _ => true
  | _ :: _, [] => false
  | a :: as, b :: bs =>
    if a < b then true
    else if b < a then false
    else pathLtb as bs

/-- Non-strict bytewise order. -/
def pathLe (x y : GoPath) : Prop := pathLtb x y = true ∨ x = y

theorem pathLtb_irrefl (x : GoPath) : pathLtb x x = false := by
  induction x with
  | nil => rfl
  | cons a as ih => simp [pathLtb, lt_irrefl, ih]

theorem pathLtb_trans {x y z : GoPath} (h1 : pathLtb x y = true)
    (h2 : pathLtb y z = true) : pathLtb x z = true := by
  induction x generalizing y z with
  | nil =>
    cases y with
    | nil => exact absurd h1 (by simp [pathLtb])
    | cons b bs =>
      cases z with
      | nil => exact absurd h2 (by simp [pathLtb])
      | cons c cs => rfl
  | cons a as ih =>
    cases y with
    | nil => exact absurd h1 (by simp [pathLtb])
    | cons b bs =>
      cases z with
      | nil => exact absurd h2 (by simp [pathLtb])
      | cons c cs =>
        simp only [pathLtb] at h1 h2 ⊢
        rcases lt_trichotomy a b with hab | hab | hab
        · rcases lt_trichotomy b c with hbc | hbc | hbc
          · simp [lt_trans hab hbc]
          · subst hbc
            simp [hab]
          · rw [if_pos hbc] at h2
            rw [if_neg (lt_asymm hbc)] at h2
            exact absurd h2 (by simp)
        · subst hab
          rw [if_neg (lt_irrefl a), if_neg (lt_irrefl a)] at h1
          rcases lt_trichotomy a c with hac | hac | hac
          · simp [hac]
          · subst hac
            rw [if_neg (lt_irrefl a), if_neg (lt_irrefl a)] at h2 ⊢
            exact ih h1 h2
          · rw [if_neg (lt_asymm hac), if_pos hac] at h2
            exact absurd h2 (by simp)
        · rw [if_neg (lt_asymm hab), if_pos hab] at h1
          exact absurd h1 (by simp)

theorem pathLtb_conn {x y : GoPath} (h1 : pathLtb x y = false)
    (h2 : pathLtb y x = false) : x = y := by
  induction x generalizing y with
  | nil =>
    cases y with
    | nil => rfl
    | cons b bs => exact absurd h1 (by simp [pathLtb])
  | cons a as ih =>
    cases y with
    | nil => exact absurd h2 (by simp [pathLtb])
    | cons b bs =>
      simp only [pathLtb] at h1 h2
      rcases lt_trichotomy a b with hab | hab | hab
      · rw [if_pos hab] at h1
        exact absurd h1 (by simp)
      · subst hab
        rw [if_neg (lt_irrefl a), if_neg (lt_irrefl a)] at h1 h2
        rw [ih h1 h2]
      · rw [if_pos hab] at h2
        exact absurd h2 (by simp)

theorem pathLtb_false_mono {a b d : GoPath} (hab : pathLe a b)
    (ha : pathLtb a d = false) : pathLtb b d = false := by
  rcases hab with h | rfl
  · rw [Bool.eq_false_iff]
    intro hc
    have := pathLtb_trans h hc
    rw [ha] at this
    exact absurd this (by simp)
  · exact ha

theorem pathLtb_true_mono {d a b : GoPath} (hda : pathLtb d a = true)
    (hab : pathLe a b) : pathLtb d b = true := by
  rcases hab with h | rfl
  · exact pathLtb_trans hda h
  · exact hda

/-- The sort key of fillImplicit's comparator: the (parent directory,
base name) pair from split. -/
def sortKey (f : FileM) : GoPath × GoPath :=
  ((splitGo f.fileName).1, (splitGo f.fileName).2.1)

/-- The order sort.Slice establishes with fillImplicit's less function
(di < dj, or di = dj and ei < ej): pairwise, later entries are not
less than earlier ones, i.e. the list is sorted by lexicographic ≤ on
the keys. -/
def fileLe (a b : FileM) : Prop :=
  pathLtb (sortKey a).1 (sortKey b).1 = true ∨
    ((sortKey a).1 = (sortKey b).1 ∧ pathLe (sortKey a).2 (sortKey b).2)

instance : DecidableRel fileLe := fun a b => by
  unfold fileLe pathLe; infer_instance

instance : IsTotal FileM fileLe := by
  constructor
  intro a b
  by_cases h1 : pathLtb (sortKey a).1 (sortKey b).1 = true
  · exact Or.inl (Or.inl h1)
  by_cases h2 : pathLtb (sortKey b).1 (sortKey a).1 = true
  · exact Or.inr (Or.inl h2)
  have heq : (sortKey a).1 = (sortKey b).1 :=
    pathLtb_conn (Bool.eq_false_iff.mpr h1) (Bool.eq_false_iff.mpr h2)
  by_cases h3 : pathLtb (sortKey a).2 (sortKey b).2 = true
  · exact Or.inl (Or.inr ⟨heq, Or.inl h3⟩)
  by_cases h4 : pathLtb (sortKey b).2 (sortKey a).2 = true
  · exact Or.inr (Or.inr ⟨heq.symm, Or.inl h4⟩)
  exact Or.inl (Or.inr ⟨heq, Or.inr
    (pathLtb_conn (Bool.eq_false_iff.mpr h3) (Bool.eq_false_iff.mpr h4))⟩)

instance : IsTrans FileM fileLe := by
  constructor
  intro a b c hab hbc
  rcases hab with h1 | ⟨h1, h1'⟩ <;> rcases hbc with h2 | ⟨h2, h2'⟩
  · exact Or.inl (pathLtb_trans h1 h2)
  · exact Or.inl (by rw [← h2]; exact h1)
  · exact Or.inl (by rw [h1]; exact h2)
  · refine Or.inr ⟨h1.trans h2, ?_⟩
    rcases h1' with hl1 | he1 <;> rcases h2' with hl2 | he2
    · exact Or.inl (pathLtb_trans hl1 hl2)
    · exact Or.inl (by rw [← he2]; exact hl1)
    · exact Or.inl (by rw [he1]; exact hl2)
    · exact Or.inr (he1.trans he2)

/-- fillImplicit from the ArchiveFS source: append a synthesized entry
for every referenced ancestor directory lacking an explicit entry,
then sort by (parent directory, base name).  sort.Slice is an
arbitrary comparison sort; it is modelled by insertion sort, which is
a correct sort for the same comparator. -/
def fillImplicit (files : List FileM) : List FileM :=
  List.insertionSort fileLe (files ++ synthDirs files)

/-- sort.Search's loop: binary search on [i, j), with explicit fuel
(the interval shrinks at every step, so fuel j - i realizes the Go
loop exactly; goSearch passes n). -/
def goSearchAux (f : Nat → Bool) : Nat → Nat → Nat → Nat
  | 0, i, _ => i
  | fuel + 1, i, j =>
    if i < j then
      let m := (i + j) / 2
      if f m then goSearchAux f fuel i m else goSearchAux f fuel (m + 1) j
    else i

/-- sort.Search(n, f): the least index in [0, n) at which the monotone
predicate f holds, or n when there is none. -/
def goSearch (n : Nat) (f : Nat → Bool) : Nat :=
  goSearchAux f n 0 n

theorem goSearchAux_bounds (f : Nat → Bool) :
    ∀ (fuel i j : Nat), j - i ≤ fuel → i ≤ j →
    i ≤ goSearchAux f fuel i j ∧ goSearchAux f fuel i j ≤ j := by
  intro fuel
  induction fuel with
  | zero =>
    intro i j hf hij
    simp only [goSearchAux]
    omega
  | succ m ih =>
    intro i j hf hij
    simp only [goSearchAux]
    by_cases h : i < j
    · rw [if_pos h]
      have hm1 : i ≤ (i + j) / 2 := by omega
      have hm2 : (i + j) / 2 < j := by omega
      by_cases hfm : f ((i + j) / 2)
      · simp only [hfm, if_true]
        have := ih i ((i + j) / 2) (by omega) hm1
        omega
      · simp only [hfm, Bool.false_eq_true, if_false]
        have := ih ((i + j) / 2 + 1) j (by omega) (by omega)
        omega
    · rw [if_neg h]
      omega

theorem goSearchAux_below (f : Nat → Bool)
    (mono : ∀ a b, a ≤ b → f a = true → f b = true) :
    ∀ (fuel i j : Nat), j - i ≤ fuel → i ≤ j →
    ∀ k, i ≤ k → k < goSearchAux f fuel i j → f k = false := by
  intro fuel
  induction fuel with
  | zero =>
    intro i j hf hij k hk1 hk2
    simp only [goSearchAux] at hk2
    exact absurd hk2 (by omega)
  | succ m ih =>
    intro i j hf hij k hk1 hk2
    simp only [goSearchAux] at hk2
    by_cases h : i < j
    · rw [if_pos h] at hk2
      have hm1 : i ≤ (i + j) / 2 := by omega
      have hm2 : (i + j) / 2 < j := by omega
      by_cases hfm : f ((i + j) / 2)
      · simp only [hfm, if_true] at hk2
        exact ih i ((i + j) / 2) (by omega) hm1 k hk1 hk2
      · simp only [hfm, Bool.false_eq_true, if_false] at hk2
        by_cases hkm : k ≤ (i + j) / 2
        · rw [Bool.eq_false_iff]
          intro hc
          exact absurd (mono k ((i + j) / 2) hkm hc) (by simp [hfm])
        · exact ih ((i + j) / 2 + 1) j (by omega) (by omega) k (by omega) hk2
    · rw [if_neg h] at hk2
      omega

theorem goSearchAux_found (f : Nat → Bool) :
    ∀ (fuel i j : Nat), j - i ≤ fuel → i ≤ j →
    goSearchAux f fuel i j < j → f (goSearchAux f fuel i j) = true := by
  intro fuel
  induction fuel with
  | zero =>
    intro i j hf hij hlt
    simp only [goSearchAux] at hlt
    exact absurd hlt (by omega)
  | succ m ih =>
    intro i j hf hij hlt
    simp only [goSearchAux] at hlt ⊢
    by_cases h : i < j
    · rw [if_pos h] at hlt ⊢
      have hm1 : i ≤ (i + j) / 2 := by omega
      have hm2 : (i + j) / 2 < j := by omega
      by_cases hfm : f ((i + j) / 2)
      · simp only [hfm, if_true] at hlt ⊢
        have hb := goSearchAux_bounds f m i ((i + j) / 2)
          (by omega) hm1
        by_cases hend : goSearchAux f m i ((i + j) / 2) < (i + j) / 2
        · exact ih i ((i + j) / 2) (by omega) hm1 hend
        · have heq : goSearchAux f m i ((i + j) / 2) = (i + j) / 2 := by omega
          rw [heq]
          exact hfm
      · simp only [hfm, Bool.false_eq_true, if_false] at hlt ⊢
        exact ih ((i + j) / 2 + 1) j (by omega) (by omega) hlt
    · rw [if_neg h] at hlt
      omega

theorem goSearch_bounds (n : Nat) (f : Nat → Bool) :
    goSearch n f ≤ n :=
  (goSearchAux_bounds f n 0 n (by omega) (by omega)).2

theorem goSearch_below (n : Nat) (f : Nat → Bool)
    (mono : ∀ a b, a ≤ b → f a = true → f b = true) :
    ∀ k, k < goSearch n f → f k = false :=
  fun k hk => goSearchAux_below f mono n 0 n (by omega) (by omega) k
    (by omega) hk

theorem goSearch_found (n : Nat) (f : Nat → Bool)
    (h : goSearch n f < n) : f (goSearch n f) = true :=
  goSearchAux_found f n 0 n (by omega) (by omega) h

/-- The lower-bound predicate of openReadDir's first binary search:
the parent directory of entry k is at least dir.  sort.Search never
evaluates its predicate at or beyond n, so padding with true there
leaves the search unchanged (and keeps the predicate monotone). -/
def dirGe (dir : GoPath) (entries : List FileM) (k : Nat) : Bool :=
  if h : k < entries.length then
    !(pathLtb (sortKey entries[k]).1 dir)
  else true

/-- The upper-bound predicate of openReadDir's second binary search:
the parent directory of entry k exceeds dir. -/
def dirGt (dir : GoPath) (entries : List FileM) (k : Nat) : Bool :=
  if h : k < entries.length then
    pathLtb dir (sortKey entries[k]).1
  else true

/-- openReadDir from the ArchiveFS source: two binary searches bracket
the contiguous run of entries whose parent-directory component equals
dir, and that run is returned (the Go code wraps each entry in
fs.FileInfoToDirEntry, whose Name() is the entry's base name). -/
def openReadDir (dir : GoPath) (entries : List FileM) : List FileM :=
  let i := goSearch entries.length (dirGe dir entries)
  let j := goSearch entries.length (dirGt dir entries)
  (entries.drop i).take (j - i)

/-- The predicate of search's binary search: entry k's (dir, elem) key
is at least name's, lexicographically. -/
def keyGe (name : GoPath) (entries : List FileM) (k : Nat) : Bool :=
  if h : k < entries.length then
    pathLtb (splitGo name).1 (sortKey entries[k]).1 ||
    ((sortKey entries[k]).1 == (splitGo name).1 &&
      !(pathLtb (sortKey entries[k]).2 (splitGo name).2.1))
  else true

/-- search from the ArchiveFS source: binary-search the sorted entries
for the least entry at or past name's key; it is the named entry if
its path is exactly name or name plus a trailing slash. -/
def searchEntry (name : GoPath) (entries : List FileM) : Option FileM :=
  let i := goSearch entries.length (keyGe name entries)
  if h : i < entries.length then
    if entries[i].fileName = name ∨ entries[i].fileName = name ++ ['/'] then
      some entries[i]
    else none
  else none

/-- The tail of ArchiveFS.ReadDir over the collected entries:
synthesize implicit directories, then either list the archive root
directly, or locate the named entry (which must be a directory) and
list its children; the returned names are the entries' base names. -/
def readDirNames (name : GoPath) (files : List FileM) :
    Option (List GoPath) :=
  let entries := fillImplicit files
  if name = ['.'] then
    some ((openReadDir name entries).map FileM.baseName)
  else
    match searchEntry name entries with
    | none => none
    | some f =>
      if f.isDir then some ((openReadDir name entries).map FileM.baseName)
      else none

theorem sorted_key_mono {entries : List FileM}
    (hs : entries.Sorted fileLe) {a b : Nat}
    (ha : a < entries.length) (hb : b < entries.length) (hab : a ≤ b) :
    pathLe (sortKey entries[a]).1 (sortKey entries[b]).1 := by
  rcases Nat.lt_or_ge a b with h | h
  · have hr := List.pairwise_iff_getElem.mp hs a b ha hb h
    rcases hr with h1 | ⟨h1, _⟩
    · exact Or.inl h1
    · exact Or.inr h1
  · have : a = b := by omega
    subst this
    exact Or.inr rfl

theorem dirGe_mono (dir : GoPath) (entries : List FileM)
    (hs : entries.Sorted fileLe) :
    ∀ a b, a ≤ b → dirGe dir entries a = true → dirGe dir entries b = true := by
  intro a b hab hf
  unfold dirGe at hf ⊢
  by_cases hb : b < entries.length
  · rw [dif_pos hb]
    have ha : a < entries.length := lt_of_le_of_lt hab hb
    rw [dif_pos ha] at hf
    rw [Bool.not_eq_eq_eq_not, Bool.not_true] at hf ⊢
    exact pathLtb_false_mono (sorted_key_mono hs ha hb hab) hf
  · rw [dif_neg hb]

theorem dirGt_mono (dir : GoPath) (entries : List FileM)
    (hs : entries.Sorted fileLe) :
    ∀ a b, a ≤ b → dirGt dir entries a = true → dirGt dir entries b = true := by
  intro a b hab hf
  unfold dirGt at hf ⊢
  by_cases hb : b < entries.length
  · rw [dif_pos hb]
    have ha : a < entries.length := lt_of_le_of_lt hab hb
    rw [dif_pos ha] at hf
    exact pathLtb_true_mono hf (sorted_key_mono hs ha hb hab)
  · rw [dif_neg hb]

theorem mem_take_idx {α} {l : List α} {m : Nat} {a : α} (h : a ∈ l.take m) :
    ∃ k, ∃ hk : k < l.length, k < m ∧ l[k] = a := by
  obtain ⟨⟨k, hk⟩, hget⟩ := List.mem_iff_get.mp h
  simp only [List.length_take, lt_min_iff] at hk
  refine ⟨k, hk.2, hk.1, ?_⟩
  rw [← hget]
  simp [List.get_eq_getElem, List.getElem_take]

theorem mem_drop_idx {α} {l : List α} {m : Nat} {a : α} (h : a ∈ l.drop m) :
    ∃ k, ∃ hk : k < l.length, m ≤ k ∧ l[k] = a := by
  obtain ⟨⟨k, hk⟩, hget⟩ := List.mem_iff_get.mp h
  simp only [List.length_drop] at hk
  refine ⟨m + k, by omega, by omega, ?_⟩
  rw [← hget]
  simp [List.get_eq_getElem, List.getElem_drop]

/-- On entries sorted by fillImplicit's comparator, openReadDir returns
exactly the entries whose parent-directory component equals dir. -/
theorem openReadDir_eq_filter (dir : GoPath) (entries : List FileM)
    (hs : entries.Sorted fileLe) :
    openReadDir dir entries
      = entries.filter (fun f => (sortKey f).1 == dir) := by
  have hmonoGe := dirGe_mono dir entries hs
  have hmonoGt := dirGt_mono dir entries hs
  set n := entries.length with hn
  set i := goSearch n (dirGe dir entries) with hidef
  set j := goSearch n (dirGt dir entries) with hjdef
  have hin : i ≤ n := goSearch_bounds n _
  have hjn : j ≤ n := goSearch_bounds n _
  have hij : i ≤ j := by
    by_contra hc
    push_neg at hc
    have hjlt : j < n := lt_of_lt_of_le hc hin
    have h1 : dirGt dir entries j = true := goSearch_found n _ hjlt
    have h2 : dirGe dir entries j = false := goSearch_below n _ hmonoGe j hc
    unfold dirGt at h1
    unfold dirGe at h2
    rw [dif_pos hjlt] at h1
    rw [dif_pos hjlt, Bool.not_eq_false'] at h2
    have := pathLtb_trans h1 h2
    rw [pathLtb_irrefl] at this
    exact absurd this (by simp)
  have hA : ∀ k, ∀ hk : k < n, k < i →
      ((sortKey entries[k]).1 == dir) = false := by
    intro k hk hki
    have h2 := goSearch_below n _ hmonoGe k hki
    unfold dirGe at h2
    rw [dif_pos hk, Bool.not_eq_false'] at h2
    rw [beq_eq_false_iff_ne]
    intro hc
    rw [hc, pathLtb_irrefl] at h2
    exact absurd h2 (by simp)
  have hB : ∀ k, ∀ hk : k < n, i ≤ k → k < j →
      ((sortKey entries[k]).1 == dir) = true := by
    intro k hk hik hkj
    have hiLt : i < n := lt_of_le_of_lt hik hk
    have h1 : dirGe dir entries i = true := goSearch_found n _ hiLt
    have h2 : dirGe dir entries k = true := hmonoGe i k hik h1
    have h3 : dirGt dir entries k = false := goSearch_below n _ hmonoGt k hkj
    unfold dirGe at h2
    unfold dirGt at h3
    rw [dif_pos hk, Bool.not_eq_eq_eq_not, Bool.not_true] at h2
    rw [dif_pos hk] at h3
    rw [beq_iff_eq]
    exact pathLtb_conn h2 h3
  have hC : ∀ k, ∀ hk : k < n, j ≤ k →
      ((sortKey entries[k]).1 == dir) = false := by
    intro k hk hjk
    have hjlt : j < n := lt_of_le_of_lt hjk hk
    have h1 : dirGt dir entries j = true := goSearch_found n _ hjlt
    have h2 : dirGt dir entries k = true := hmonoGt j k hjk h1
    unfold dirGt at h2
    rw [dif_pos hk] at h2
    rw [beq_eq_false_iff_ne]
    intro hc
    rw [hc, pathLtb_irrefl] at h2
    exact absurd h2 (by simp)
  show (entries.drop i).take (j - i) = _
  have hsplitA : entries = entries.take i ++ entries.drop i :=
    (List.take_append_drop i entries).symm
  have hsplitB : entries.drop i
      = (entries.drop i).take (j - i) ++ (entries.drop i).drop (j - i) :=
    (List.take_append_drop (j - i) (entries.drop i)).symm
  have hdd : (entries.drop i).drop (j - i) = entries.drop j := by
    rw [List.drop_drop]
    congr 1
    omega
  have hfA : (entries.take i).filter
      (fun f => (sortKey f).1 == dir) = [] := by
    rw [List.filter_eq_nil]
    intro a ha
    obtain ⟨k, hk, hki, rfl⟩ := mem_take_idx ha
    simp only [Bool.not_eq_true]
    exact hA k hk hki
  have hfC : (entries.drop j).filter
      (fun f => (sortKey f).1 == dir) = [] := by
    rw [List.filter_eq_nil]
    intro a ha
    obtain ⟨k, hk, hkj, rfl⟩ := mem_drop_idx ha
    simp only [Bool.not_eq_true]
    exact hC k hk hkj
  have hfB : ((entries.drop i).take (j - i)).filter
      (fun f => (sortKey f).1 == dir)
      = (entries.drop i).take (j - i) := by
    rw [List.filter_eq_self]
    intro a ha
    obtain ⟨k', hk', hk'm, hget⟩ := mem_take_idx ha
    have hk'len : k' < entries.length - i := by simpa using hk'
    rw [List.getElem_drop] at hget
    have hkj : i + k' < j := by omega
    rw [← hget]
    exact hB (i + k') (by omega) (by omega) hkj
  conv_rhs => rw [hsplitA, hsplitB, hdd]
  rw [List.filter_append, List.filter_append, hfA, hfB, hfC]
  simp

/-- Every entry fillImplicit returns is either one of the collected
entries or a synthesized implicit directory, and the synthesized ones
carry size zero, the zero modification time, and the directory mode
bit. -/
theorem fillImplicit_mem (files : List FileM) (e : FileM)
    (h : e ∈ fillImplicit files) :
    e ∈ files ∨ (e.size = 0 ∧ e.modTime = 0 ∧ e.dirMode = true) := by
  unfold fillImplicit at h
  have hp := (List.perm_insertionSort fileLe (files ++ synthDirs files)).mem_iff.mp h
  rcases List.mem_append.mp hp with h1 | h1
  · exact Or.inl h1
  · right
    unfold synthDirs at h1
    obtain ⟨d, _, rfl⟩ := List.mem_map.mp h1
    exact ⟨rfl, rfl, rfl⟩

theorem perm_any {α} {l₁ l₂ : List α} (h : l₁.Perm l₂) (p : α → Bool) :
    l₁.any p = l₂.any p := by
  rw [Bool.eq_iff_iff]
  simp only [List.any_eq_true]
  constructor
  · rintro ⟨x, hx, hp⟩
    exact ⟨x, h.mem_iff.mp hx, hp⟩
  · rintro ⟨x, hx, hp⟩
    exact ⟨x, h.mem_iff.mpr hx, hp⟩

theorem synthDirs_perm {f₁ f₂ : List FileM} (h : f₁.Perm f₂) :
    (synthDirs f₁).Perm (synthDirs f₂) := by
  unfold synthDirs
  apply List.Perm.map
  have hc : (collectDirs f₁).Perm (collectDirs f₂) := by
    unfold collectDirs
    exact (h.flatMap_right _).dedup
  have hq : ∀ d, knownDir f₁ d = knownDir f₂ d := by
    intro d
    unfold knownDir
    exact perm_any h _
  have h1 : ((collectDirs f₁).filter (fun d => !knownDir f₁ d)).Perm
      ((collectDirs f₂).filter (fun d => !knownDir f₁ d)) := hc.filter _
  have h2 : (collectDirs f₂).filter (fun d => !knownDir f₁ d)
      = (collectDirs f₂).filter (fun d => !knownDir f₂ d) :=
    List.filter_congr (fun d _ => by rw [hq d])
  exact h2 ▸ h1

theorem fillImplicit_perm {f₁ f₂ : List FileM} (h : f₁.Perm f₂) :
    (fillImplicit f₁).Perm (fillImplicit f₂) := by
  unfold fillImplicit
  exact (List.perm_insertionSort _ _).trans
    ((h.append (synthDirs_perm h)).trans
      (List.perm_insertionSort _ _).symm)

/-- Claim C4: for the archive holding exactly the regular files
"a/b/c" and "a/d" with no explicit directory entries, the adapter
lists "." as exactly ["a"], "a" as exactly ["b", "d"], and "a/b" as
exactly ["c"]; and every synthesized implicit-directory entry reports
size zero, the zero modification time, and the directory mode bit. -/
theorem archiveFS_implicit_dirs_spec :
    readDirNames ['.']
      [⟨['a', '/', 'b', '/', 'c'], ['c'], 7, 9, false⟩,
       ⟨['a', '/', 'd'], ['d'], 3, 4, false⟩] = some [['a']] ∧
    readDirNames ['a']
      [⟨['a', '/', 'b', '/', 'c'], ['c'], 7, 9, false⟩,
       ⟨['a', '/', 'd'], ['d'], 3, 4, false⟩] = some [['b'], ['d']] ∧
    readDirNames ['a', '/', 'b']
      [⟨['a', '/', 'b', '/', 'c'], ['c'], 7, 9, false⟩,
       ⟨['a', '/', 'd'], ['d'], 3, 4, false⟩] = some [['c']] ∧
    ∀ (files : List FileM) (e : FileM), e ∈ fillImplicit files →
      e ∈ files ∨ (e.size = 0 ∧ e.modTime = 0 ∧ e.dirMode = true) := by
  refine ⟨by decide, by decide, by decide, fillImplicit_mem⟩

/-- Witness for C4: the implicit directory "a" synthesized for the
archive ["a/b"] is not an archive entry and carries the synthesized
attributes. -/
theorem archiveFS_implicit_dirs_spec_witness :
    mkImplicit ['a'] ∈ [⟨['a', '/', 'b'], ['b'], 2, 3, false⟩] ∨
    ((mkImplicit ['a']).size = 0 ∧ (mkImplicit ['a']).modTime = 0 ∧
      (mkImplicit ['a']).dirMode = true) :=
  archiveFS_implicit_dirs_spec.2.2.2
    [⟨['a', '/', 'b'], ['b'], 2, 3, false⟩] (mkImplicit ['a']) (by decide)

/-- Claim C5: implicit-directory synthesis followed by sorting yields
entries ordered lexicographically by (parent directory, base name);
the directory listing of any path is, as a multiset, independent of
the archive's storage order; and the archive storing "1/2", "2/1",
"1/1" in that interleaved order lists directory "1" as exactly
["1", "2"]. -/
theorem archiveFS_listing_order_indep :
    (∀ files : List FileM, (fillImplicit files).Sorted fileLe) ∧
    (∀ (files₁ files₂ : List FileM), files₁.Perm files₂ → ∀ dir : GoPath,
      ((openReadDir dir (fillImplicit files₁)).map FileM.baseName).Perm
        ((openReadDir dir (fillImplicit files₂)).map FileM.baseName)) ∧
    readDirNames ['1']
      [⟨['1', '/', '2'], ['2'], 1, 1, false⟩,
       ⟨['2', '/', '1'], ['1'], 1, 1, false⟩,
       ⟨['1', '/', '1'], ['1'], 1, 1, false⟩] = some [['1'], ['2']] := by
  have hsorted : ∀ files : List FileM, (fillImplicit files).Sorted fileLe :=
    fun files => List.sorted_insertionSort fileLe _
  refine ⟨hsorted, ?_, by decide⟩
  intro f₁ f₂ h dir
  apply List.Perm.map
  rw [openReadDir_eq_filter dir _ (hsorted f₁),
    openReadDir_eq_filter dir _ (hsorted f₂)]
  exact (fillImplicit_perm h).filter _

/-- Witness for C5: listing directory "1" gives the same children for
two storage orders of the same entries. -/
theorem archiveFS_listing_order_indep_witness :
    ((openReadDir ['1'] (fillImplicit
      [⟨['1', '/', '2'], ['2'], 1, 1, false⟩,
       ⟨['1', '/', '1'], ['1'], 1, 1, false⟩])).map FileM.baseName).Perm
    ((openReadDir ['1'] (fillImplicit
      [⟨['1', '/', '1'], ['1'], 1, 1, false⟩,
       ⟨['1', '/', '2'], ['2'], 1, 1, false⟩])).map FileM.baseName) :=
  archiveFS_listing_order_indep.2.1
    [⟨['1', '/', '2'], ['2'], 1, 1, false⟩,
     ⟨['1', '/', '1'], ['1'], 1, 1, false⟩]
    [⟨['1', '/', '1'], ['1'], 1, 1, false⟩,
     ⟨['1', '/', '2'], ['2'], 1, 1, false⟩]
    (List.Perm.swap _ _ _) ['1']

end Compressor
